import Mathlib

/-!
Verification of the CalDraCor TEI transformation script
(`transform_caldracor_tgr.py`): a shallow embedding of the XML element
tree manipulated by lxml, of the eight mutation rules of the pipeline,
and proofs of the specification's claims about them.
-/

/- An XML element as manipulated by lxml: a (namespace-qualified) tag,
an ordered attribute map, the text before the first child, the ordered
children, and the tail text following the element's end tag. -/
inductive Elem where
  | mk (tag : String) (attrs : List (String × String)) (text : Option String)
       (children : List Elem) (tail : Option String)

def Elem.tag : Elem → String
  | .mk t _ _ _ _ => t

def Elem.attrs : Elem → List (String × String)
  | .mk _ a _ _ _ => a

def Elem.text : Elem → Option String
  | .mk _ _ x _ _ => x

def Elem.children : Elem → List Elem
  | .mk _ _ _ cs _ => cs

def Elem.tail : Elem → Option String
  | .mk _ _ _ _ tl => tl

/-- `element.get(k)`: first value bound to attribute name `k`. -/
def getAttr : List (String × String) → String → Option String
  | [], _ => none
  | (k, v) :: r, q => if k = q then some v else getAttr r q

/-- `element.set(k, v)`: replace the value in place if the name is
present, otherwise append the pair (lxml's ordered attribute dict). -/
def setAttr : List (String × String) → String → String → List (String × String)
  | [], q, v => [(q, v)]
  | (k, w) :: r, q, v => if k = q then (q, v) :: r else (k, w) :: setAttr r q v

/-- Namespace-qualified name in lxml notation, `\x7buri\x7dlocal`. -/
def nsName (uri loc : String) : String := "\x7b" ++ uri ++ "\x7d" ++ loc

def TEI_NS : String := "http://www.tei-c.org/ns/1.0"
def XML_NS : String := "http://www.w3.org/XML/1998/namespace"

def idnoT : String := nsName TEI_NS "idno"
def langUsageT : String := nsName TEI_NS "langUsage"
def languageT : String := nsName TEI_NS "language"
def profileDescT : String := nsName TEI_NS "profileDesc"
def textClassT : String := nsName TEI_NS "textClass"
def keywordsT : String := nsName TEI_NS "keywords"
def termT : String := nsName TEI_NS "term"
def respStmtT : String := nsName TEI_NS "respStmt"
def persNameT : String := nsName TEI_NS "persName"
def forenameT : String := nsName TEI_NS "forename"
def surnameT : String := nsName TEI_NS "surname"
def fileDescT : String := nsName TEI_NS "fileDesc"
def publicationStmtT : String := nsName TEI_NS "publicationStmt"
def publisherT : String := nsName TEI_NS "publisher"
def standOffT : String := nsName TEI_NS "standOff"
def listEventT : String := nsName TEI_NS "listEvent"
def eventT : String := nsName TEI_NS "event"
def creationT : String := nsName TEI_NS "creation"
def dateT : String := nsName TEI_NS "date"
def xmlIdA : String := nsName XML_NS "id"

def PUBLISHER_TEXT : String :=
  "Tracing Regularities in Pedro Calderón de la Barca\x27s Dramatic OEuvre " ++
  "with a Computational Approach (508056339)"

def ORCID_ROJAS : String := "https://orcid.org/0000-0002-8916-4997"

/-- Characters removed by Python's `str.strip()`: exactly the
characters for which Python's `str.isspace()` is true (ASCII
whitespace, the information separators, NEL, NBSP, Ogham space mark,
the U+2000 block, line/paragraph separators, narrow/medium spaces and
the ideographic space). -/
def pySpace (c : Char) : Bool :=
  c = ' ' || c = '\t' || c = '\n' || c = '\x0b' || c = '\x0c' || c = '\r' ||
  c = '\x1c' || c = '\x1d' || c = '\x1e' || c = '\x1f' || c = '\x85' || c = '\xa0' ||
  c = '\u1680' || (decide ('\u2000' ≤ c) && decide (c ≤ '\u200a')) ||
  c = '\u2028' || c = '\u2029' || c = '\u202f' || c = '\u205f' || c = '\u3000'

/-- Python `s.strip()`. -/
def pyStrip (s : String) : String :=
  ⟨((s.data.dropWhile pySpace).reverse.dropWhile pySpace).reverse⟩

/-- Python `s.replace("\xa0", " ")` (single-character pattern, hence a
character map). -/
def replaceNbsp (s : String) : String :=
  ⟨s.data.map (fun c => if c = '\xa0' then ' ' else c)⟩

/-- Python's substring test `needle in hay`, on the character lists. -/
def listHasInfix (n : List Char) : List Char → Bool
  | [] => n.isEmpty
  | c :: r => n.isPrefixOf (c :: r) || listHasInfix n r

def strContains (hay needle : String) : Bool :=
  listHasInfix needle.data hay.data

mutual
/-- lxml `element.itertext()`: the element's text followed by, for each
child in order, the child's itertext and then the child's tail. -/
def itertext : Elem → List String
  | .mk _ _ x cs _ => x.toList ++ itertextL cs
def itertextL : List Elem → List String
  | [] => []
  | c :: r => itertext c ++ c.tail.toList ++ itertextL r
end

/-- `" ".join(pers.itertext()).strip().replace("\xa0", " ")`. -/
def flatText (e : Elem) : String :=
  replaceNbsp (pyStrip (String.intercalate " " (itertext e)))

/- ### Rule 1: add_wikidata_corresp -/

/-- Python truthiness of `element.get(k)`: `None` (attribute absent)
and a present empty-string value are falsy; any non-empty value is
truthy. -/
def attrTruthy (a : List (String × String)) (k : String) : Bool :=
  match getAttr a k with
  | none => false
  | some v => decide (v ≠ "")

/-- Attribute transformation applied at an `idno[@type="wikidata"]`
node. The guard is `if qid and not idno.get("corresp")`: it fires both
when corresp is absent and when it is present with an empty value. -/
def wikidataAttrs (t : String) (a : List (String × String)) (x : Option String) :
    List (String × String) :=
  if t = idnoT ∧ getAttr a "type" = some "wikidata" then
    let qid := pyStrip (x.getD "")
    if qid ≠ "" ∧ attrTruthy a "corresp" = false then
      setAttr a "corresp" ("https://www.wikidata.org/wiki/" ++ qid)
    else a
  else a

mutual
def add_wikidata_corresp : Elem → Elem
  | .mk t a x cs tl => .mk t (wikidataAttrs t a x) x (wikidataL cs) tl
def wikidataL : List Elem → List Elem
  | [] => []
  | c :: r => add_wikidata_corresp c :: wikidataL r
end

/- ### Rule 2: convert_pnd_to_gnd -/

/-- Attribute transformation applied at an `idno[@type="pnd"]` node:
the type is rewritten unconditionally, the corresp only if absent and
the trimmed text is non-empty. -/
def pndAttrs (t : String) (a : List (String × String)) (x : Option String) :
    List (String × String) :=
  if t = idnoT ∧ getAttr a "type" = some "pnd" then
    let num := pyStrip (x.getD "")
    let a1 := setAttr a "type" "gnd"
    if num ≠ "" ∧ attrTruthy a1 "corresp" = false then
      setAttr a1 "corresp" ("https://d-nb.info/gnd/" ++ num)
    else a1
  else a

mutual
def convert_pnd_to_gnd : Elem → Elem
  | .mk t a x cs tl => .mk t (pndAttrs t a x) x (pndL cs) tl
def pndL : List Elem → List Elem
  | [] => []
  | c :: r => convert_pnd_to_gnd c :: pndL r
end

/- ### Rule 3: ensure_langusage_spanish -/

def langUsageNew : Elem :=
  .mk langUsageT [] none [.mk languageT [("ident", "spa")] (some "Spanish") [] none] none

def hasChildTag (cs : List Elem) (t : String) : Bool :=
  cs.any (fun c => c.tag = t)

mutual
def ensure_langusage_spanish : Elem → Elem
  | .mk t a x cs tl =>
    if t = profileDescT ∧ ¬ hasChildTag cs langUsageT then
      .mk t a x (langusageL cs ++ [langUsageNew]) tl
    else
      .mk t a x (langusageL cs) tl
def langusageL : List Elem → List Elem
  | [] => []
  | c :: r => ensure_langusage_spanish c :: langusageL r
end

/- ### Rule 4: ensure_textclass_keywords -/

def bkScheme : String := "http://uri.gbv.de/terminology/bk/"
def gndScheme : String := "https://d-nb.info/gnd/"
def tgScheme : String := "http://textgrid.info/namespaces/metadata/core/2010#genre"

def kwBK : Elem :=
  .mk keywordsT [("scheme", bkScheme)] none
    [.mk termT [("type", "basicClassification"), ("key", "17.97")]
       (some "Texts by a single author") [] none,
     .mk termT [("type", "basicClassification"), ("key", "18.30")]
       (some "Spanish language and literature") [] none] none

def kwGND : Elem :=
  .mk keywordsT [("scheme", gndScheme)] none
    [.mk termT [("type", "testament"), ("ref", "http://d-nb.info/gnd/4304080-9")]
       (some "Theaterstück") [] none] none

def kwTG : Elem :=
  .mk keywordsT [("scheme", tgScheme)] none
    [.mk termT [("type", "genre-tg")] (some "drama") [] none] none

/-- `text_class.xpath('tei:keywords[@scheme=...]')` is non-empty. -/
def hasScheme (cs : List Elem) (s : String) : Bool :=
  cs.any (fun c => c.tag = keywordsT && getAttr c.attrs "scheme" == some s)

def missingKeywords (cs : List Elem) : List Elem :=
  (if hasScheme cs bkScheme then [] else [kwBK]) ++
  (if hasScheme cs gndScheme then [] else [kwGND]) ++
  (if hasScheme cs tgScheme then [] else [kwTG])

mutual
def ensure_textclass_keywords : Elem → Elem
  | .mk t a x cs tl =>
    if t = textClassT then
      .mk t a x (textclassL cs ++ missingKeywords cs) tl
    else
      .mk t a x (textclassL cs) tl
def textclassL : List Elem → List Elem
  | [] => []
  | c :: r => ensure_textclass_keywords c :: textclassL r
end

/- ### Rule 5: normalize_persname_rojas -/

/-- The heuristic of the source: xml:id is "rojas", or the flattened
text contains both "Rojas" and "Antonio". -/
def rojasMatch (e : Elem) : Bool :=
  getAttr e.attrs xmlIdA == some "rojas" ||
    (strContains (flatText e) "Rojas" && strContains (flatText e) "Antonio")

/-- The canonical persName the rule rebuilds matching entries into:
`clear()` (which also clears text and tail), then xml:id, corresp, and
the two children. -/
def canonicalPers : Elem :=
  .mk persNameT [(xmlIdA, "rojas"), ("corresp", ORCID_ROJAS)] none
    [.mk forenameT [] (some "Antonio") [] none,
     .mk surnameT [] (some "Rojas Castro") [] none] none

mutual
def normalize_persname_rojas : Elem → Elem
  | .mk t a x cs tl => .mk t a x (persnameL t cs) tl
def persnameL : String → List Elem → List Elem
  | _, [] => []
  | t, c :: r =>
    (if t = respStmtT ∧ c.tag = persNameT ∧ rojasMatch c then canonicalPers
     else normalize_persname_rojas c) :: persnameL t r
end

/- ### Generic first-match machinery for the rules that touch only the
first node matched by an absolute path (`ensure_publisher`,
`ensure_caldracor_id`, `ensure_creation_from_events`).

`mfirst p f pt e` rewrites, by `f`, the first node of `e`'s subtree (in
document order, the node itself included) whose parent tag `pt` and own
tag satisfy `p`; it returns `none` when no node matches. -/

mutual
def mfirst (p : String → String → Bool) (f : Elem → Elem) : String → Elem → Option Elem
  | pt, .mk t a x cs tl =>
    if p pt t then some (f (.mk t a x cs tl))
    else (mfirstL p f t cs).map (fun cs2 => .mk t a x cs2 tl)
def mfirstL (p : String → String → Bool) (f : Elem → Elem) : String → List Elem → Option (List Elem)
  | _, [] => none
  | pt, c :: r =>
    match mfirst p f pt c with
    | some c2 => some (c2 :: r)
    | none => (mfirstL p f pt r).map (fun r2 => c :: r2)
end

mutual
/-- The first node (in document order) of the subtree whose parent tag
and tag satisfy `p` — the node a first-match xpath/find would return. -/
def ffirst (p : String → String → Bool) : String → Elem → Option Elem
  | pt, .mk t a x cs tl =>
    if p pt t then some (.mk t a x cs tl)
    else ffirstL p t cs
def ffirstL (p : String → String → Bool) : String → List Elem → Option Elem
  | _, [] => none
  | pt, c :: r =>
    match ffirst p pt c with
    | some c2 => some c2
    | none => ffirstL p pt r
end

/- ### Rule 6: ensure_publisher -/

/-- The `//tei:fileDesc/tei:publicationStmt` test: tag is
publicationStmt and the parent tag is fileDesc. -/
def pubPred (pt t : String) : Bool := pt = fileDescT && t = publicationStmtT

/-- Overwrite the text of the first `publisher` child (keeping its
attributes, children and tail), if any. -/
def setFirstPublisher : List Elem → Option (List Elem)
  | [] => none
  | c :: r =>
    if c.tag = publisherT then
      some (.mk c.tag c.attrs (some PUBLISHER_TEXT) c.children c.tail :: r)
    else (setFirstPublisher r).map (fun r2 => c :: r2)

/-- What `ensure_publisher` does inside the publicationStmt it found. -/
def pubFix (ps : Elem) : Elem :=
  match setFirstPublisher ps.children with
  | some cs2 => .mk ps.tag ps.attrs ps.text cs2 ps.tail
  | none =>
    .mk ps.tag ps.attrs ps.text
      (ps.children ++ [.mk publisherT [] (some PUBLISHER_TEXT) [] none]) ps.tail

def ensure_publisher (root : Elem) : Elem :=
  (mfirst pubPred pubFix "" root).getD root

/- ### Rule 7: ensure_caldracor_id -/

def hasCaldracorIdno (cs : List Elem) : Bool :=
  cs.any (fun c => c.tag = idnoT && getAttr c.attrs "type" == some "caldracor")

def caldFix (basename : String) (ps : Elem) : Elem :=
  if hasCaldracorIdno ps.children then ps
  else
    .mk ps.tag ps.attrs ps.text
      (ps.children ++ [.mk idnoT [("type", "caldracor")] (some basename) [] none]) ps.tail

def ensure_caldracor_id (basename : String) (root : Elem) : Elem :=
  (mfirst pubPred (caldFix basename) "" root).getD root

/- ### Rule 8: ensure_creation_from_events -/

mutual
/-- First node (document order) matching
`//tei:standOff/tei:listEvent/tei:event[@type=ty]`: the grandparent tag
is standOff, the parent tag is listEvent. -/
def findEvent (ty gp pt : String) : Elem → Option Elem
  | .mk t a x cs tl =>
    if gp = standOffT ∧ pt = listEventT ∧ t = eventT ∧ getAttr a "type" = some ty then
      some (.mk t a x cs tl)
    else findEventL ty pt t cs
def findEventL (ty gp pt : String) : List Elem → Option Elem
  | [] => none
  | c :: r =>
    match findEvent ty gp pt c with
    | some e => some e
    | none => findEventL ty gp pt r
end

/-- The preferred source event: the first `written` event, else the
first `print` event. -/
def eventOf (root : Elem) : Option Elem :=
  match findEvent "written" "" "" root with
  | some e => some e
  | none => findEvent "print" "" "" root

/-- The `when`/`notBefore`/`notAfter` attributes copied onto the new
`date`: only attributes whose value is truthy (present and non-empty). -/
def dateAttrsOf (ev : Elem) : List (String × String) :=
  (["when", "notBefore", "notAfter"].filterMap fun k =>
    match getAttr ev.attrs k with
    | some v => if v ≠ "" then some (k, v) else none
    | none => none)

/-- The profileDesc test of `root.find(".//tei:profileDesc")` (any
parent). -/
def pdPred (_pt t : String) : Bool := t = profileDescT

/-- What `ensure_creation_from_events` does to the first profileDesc it
found: nothing if a creation child exists or no event was found,
otherwise append `<creation><date .../></creation>`. -/
def creationFix (ev : Option Elem) (pd : Elem) : Elem :=
  if hasChildTag pd.children creationT then pd
  else
    match ev with
    | none => pd
    | some e =>
      .mk pd.tag pd.attrs pd.text
        (pd.children ++
          [.mk creationT [] none [.mk dateT (dateAttrsOf e) none [] none] none]) pd.tail

/-- `root.find(".//tei:profileDesc")` searches strict descendants, so
the first-match rewriting runs over the root's children only. -/
def ensure_creation_from_events : Elem → Elem
  | .mk t a x cs tl =>
    match mfirstL pdPred (creationFix (eventOf (.mk t a x cs tl))) t cs with
    | some cs2 => .mk t a x cs2 tl
    | none => .mk t a x cs tl

/- ### The pipeline (`process_file`, minus parsing and serialization) -/

def process (basename : String) (root : Elem) : Elem :=
  ensure_creation_from_events
    (ensure_caldracor_id basename
      (ensure_publisher
        (normalize_persname_rojas
          (ensure_textclass_keywords
            (ensure_langusage_spanish
              (convert_pnd_to_gnd
                (add_wikidata_corresp root)))))))

/- ### Auxiliary definitions for stating and proving the claims -/

/-- `root.find(".//tei:profileDesc")`: the first strict descendant with
tag profileDesc, in document order. -/
def firstProfileDesc (d : Elem) : Option Elem :=
  ffirstL pdPred d.tag d.children

/- Structural equality test on elements (used to state computable
inequalities between concrete trees). -/
mutual
def beqE : Elem → Elem → Bool
  | .mk t1 a1 x1 cs1 tl1, .mk t2 a2 x2 cs2 tl2 =>
    t1 == t2 && a1 == a2 && x1 == x2 && beqL cs1 cs2 && tl1 == tl2
def beqL : List Elem → List Elem → Bool
  | [], [] => true
  | c :: r, d :: s => beqE c d && beqL r s
  | [], _ :: _ => false
  | _ :: _, [] => false
end

/- Navigate to the element at a child-index path. -/
def childAt : Elem → List Nat → Option Elem
  | e, [] => some e
  | e, i :: p =>
    match e.children[i]? with
    | some c => childAt c p
    | none => none

def tagAt (e : Elem) (p : List Nat) : Option String :=
  (childAt e p).map Elem.tag

/- Is there, anywhere in the subtree (given the parent tag of its
root), a persName child of a respStmt — an entry the persName rule
scans? -/
mutual
def hasCand : Elem → Bool
  | .mk t _ _ cs _ => hasCandL t cs
def hasCandL : String → List Elem → Bool
  | _, [] => false
  | t, c :: r =>
    (decide (t = respStmtT) && decide (c.tag = persNameT)) || hasCand c || hasCandL t r
end

/- No scanned persName entry of the document contains another scanned
entry among its descendants (candidates are not nested). -/
mutual
def noNested : Elem → Bool
  | .mk t _ _ cs _ => noNestedL t cs
def noNestedL : String → List Elem → Bool
  | _, [] => true
  | t, c :: r =>
    (if t = respStmtT ∧ c.tag = persNameT then !hasCand c else true) &&
      noNested c && noNestedL t r
end

/- No textClass element anywhere in the subtree (the node included). -/
mutual
def tcFree : Elem → Bool
  | .mk t _ _ cs _ => !(decide (t = textClassT)) && tcFreeL cs
def tcFreeL : List Elem → Bool
  | [] => true
  | c :: r => tcFree c && tcFreeL r
end

/- Is there, anywhere in the subtree (the node included, with the given
parent tag for the root), a node satisfying `p`? -/
mutual
def anyNode (p : String → Elem → Bool) : String → Elem → Bool
  | pt, .mk t a x cs tl => p pt (.mk t a x cs tl) || anyNodeL p t cs
def anyNodeL (p : String → Elem → Bool) : String → List Elem → Bool
  | _, [] => false
  | pt, c :: r => anyNode p pt c || anyNodeL p pt r
end

/-- The nodes the wikidata rule targets. -/
def wikidataTgt (_pt : String) (e : Elem) : Bool :=
  decide (e.tag = idnoT) && decide (getAttr e.attrs "type" = some "wikidata")

/-- The nodes the pnd→gnd rule targets. -/
def pndTgt (_pt : String) (e : Elem) : Bool :=
  decide (e.tag = idnoT) && decide (getAttr e.attrs "type" = some "pnd")

/-- The nodes the language-usage rule targets (a profileDesc with no
langUsage child). -/
def langTgt (_pt : String) (e : Elem) : Bool :=
  decide (e.tag = profileDescT) && !hasChildTag e.children langUsageT

/-- The nodes the keywords rule targets (a textClass missing at least
one of the three groups). -/
def tcTgt (_pt : String) (e : Elem) : Bool :=
  decide (e.tag = textClassT) &&
    !(hasScheme e.children bkScheme && hasScheme e.children gndScheme &&
      hasScheme e.children tgScheme)

/-- The nodes the persName rule targets (a matching persName child of a
respStmt). -/
def persTgt (pt : String) (e : Elem) : Bool :=
  decide (pt = respStmtT) && decide (e.tag = persNameT) && rojasMatch e

/- `Frame p pt d d2`: `d2` differs from `d` only inside subtrees rooted
at nodes satisfying `p`; every node outside those subtrees keeps its
tag, attributes, text and tail (only its child list may be rewritten,
pointwise). -/
mutual
inductive Frame (p : String → Elem → Bool) : String → Elem → Elem → Prop
  | hit (pt : String) (e e2 : Elem) : p pt e = true → Frame p pt e e2
  | keep (pt t : String) (a : List (String × String)) (x : Option String)
      (tl : Option String) (cs cs2 : List Elem) :
      FrameL p t cs cs2 →
      Frame p pt (.mk t a x cs tl) (.mk t a x cs2 tl)
inductive FrameL (p : String → Elem → Bool) : String → List Elem → List Elem → Prop
  | nil (pt : String) : FrameL p pt [] []
  | cons (pt : String) (c c2 : Elem) (cs cs2 : List Elem) :
      Frame p pt c c2 → FrameL p pt cs cs2 → FrameL p pt (c :: cs) (c2 :: cs2)
end

/-- `FrameOne p f pt d d2`: `d2` is `d` with exactly one node — one
satisfying `p` — rewritten by `f`; every node off the path to it is
identical, and the nodes on the path keep tag, attributes, text and
tail, with all their other children identical. -/
inductive FrameOne (p : String → String → Bool) (f : Elem → Elem) : String → Elem → Elem → Prop
  | hit (pt : String) (e : Elem) : p pt e.tag = true → FrameOne p f pt e (f e)
  | keep (pt t : String) (a : List (String × String)) (x : Option String)
      (tl : Option String) (pre post : List Elem) (c c2 : Elem) :
      FrameOne p f t c c2 →
      FrameOne p f pt (.mk t a x (pre ++ c :: post) tl)
        (.mk t a x (pre ++ c2 :: post) tl)

/- ### Concrete documents used as witnesses and counterexamples -/

def tei1 (t : String) (a : List (String × String)) (x : Option String) (cs : List Elem) : Elem :=
  .mk (nsName TEI_NS t) a x cs none

/-- A matching persName entry (matched through its xml:id) whose text
does not contain the name tokens. -/
def innerPers : Elem := tei1 "persName" [(xmlIdA, "rojas")] (some "x") []

/-- A non-matching persName entry under a respStmt, which contains a
further respStmt with the matching entry `innerPers`. -/
def outerPers : Elem := tei1 "persName" [] (some "nobody") [tei1 "respStmt" [] none [innerPers]]

/-- respStmt wrapping `outerPers`: the document on which the persName
rule is not idempotent and rewrites inside a non-matching entry. -/
def docNested : Elem := tei1 "respStmt" [] none [outerPers]

/-- A respStmt holding one matching entry, in the form of the spec's
example. -/
def docRojas : Elem := tei1 "respStmt" [] none [tei1 "persName" [] (some "Rojas Castro, Antonio") []]

/-- A keywords group (BK scheme) that pathologically contains a
textClass element. -/
def kwWithTC : Elem :=
  .mk keywordsT [("scheme", bkScheme)] none [.mk textClassT [] none [] none] none

/-- textClass whose only present group contains a nested textClass. -/
def docKw : Elem := .mk textClassT [] none [kwWithTC] none

/-- A written event carrying an empty `when` alongside a non-empty
`notBefore`. -/
def evEmptyWhen : Elem :=
  tei1 "event" [("type", "written"), ("when", ""), ("notBefore", "1630")] none []

/-- Document for the creation rule: a profileDesc without creation and
a written event with an empty `when` attribute. -/
def docEvEmpty : Elem :=
  tei1 "TEI" [] none
    [tei1 "profileDesc" [] none [],
     tei1 "standOff" [] none [tei1 "listEvent" [] none [evEmptyWhen]]]

/-- Document for the creation rule witness: written event with
notBefore/notAfter, no creation yet. -/
def docEvRange : Elem :=
  tei1 "TEI" [] none
    [tei1 "profileDesc" [] none [],
     tei1 "standOff" [] none
       [tei1 "listEvent" [] none
         [tei1 "event" [("type", "written"), ("notBefore", "1630"), ("notAfter", "1640")] none []]]]

/-- Document with an empty publicationStmt inside fileDesc. -/
def docPub : Elem := tei1 "fileDesc" [] none [tei1 "publicationStmt" [] none []]

/-- A document without any fileDesc/publicationStmt. -/
def docNoPub : Elem := tei1 "TEI" [] none [tei1 "teiHeader" [] none []]

/- ### Infrastructure lemmas -/

theorem Elem.inductionOn {P : Elem → Prop} (e : Elem)
    (h : ∀ t a x cs tl, (∀ c ∈ cs, P c) → P (Elem.mk t a x cs tl)) : P e := by
  suffices key : ∀ n, ∀ e2 : Elem, sizeOf e2 ≤ n → P e2 from key (sizeOf e) e le_rfl
  intro n
  induction n with
  | zero =>
    intro e2 he
    cases e2 with
    | mk t a x cs tl => simp [Elem.mk.sizeOf_spec] at he
  | succ n ih =>
    intro e2 he
    cases e2 with
    | mk t a x cs tl =>
      refine h t a x cs tl fun c hc => ih c ?_
      have h1 := List.sizeOf_lt_of_mem hc
      simp [Elem.mk.sizeOf_spec] at he
      omega

@[simp] theorem Elem.tag_mk (t a x cs tl) : (Elem.mk t a x cs tl).tag = t := rfl
@[simp] theorem Elem.attrs_mk (t a x cs tl) : (Elem.mk t a x cs tl).attrs = a := rfl
@[simp] theorem Elem.text_mk (t a x cs tl) : (Elem.mk t a x cs tl).text = x := rfl
@[simp] theorem Elem.children_mk (t a x cs tl) : (Elem.mk t a x cs tl).children = cs := rfl
@[simp] theorem Elem.tail_mk (t a x cs tl) : (Elem.mk t a x cs tl).tail = tl := rfl

theorem Elem.eta (e : Elem) : Elem.mk e.tag e.attrs e.text e.children e.tail = e := by
  cases e; rfl

theorem getAttr_setAttr_self (a : List (String × String)) (k v : String) :
    getAttr (setAttr a k v) k = some v := by
  induction a with
  | nil => simp [setAttr, getAttr]
  | cons p r ih =>
    obtain ⟨k1, v1⟩ := p
    by_cases h : k1 = k <;> simp [setAttr, getAttr, h, ih]

theorem getAttr_setAttr_ne (a : List (String × String)) (k v k2 : String) (h : k2 ≠ k) :
    getAttr (setAttr a k v) k2 = getAttr a k2 := by
  induction a with
  | nil =>
    have hne : ¬ (k = k2) := fun hh => h hh.symm
    simp [setAttr, getAttr, hne]
  | cons p r ih =>
    obtain ⟨k1, v1⟩ := p
    by_cases h1 : k1 = k
    · subst h1
      have hne : ¬ (k1 = k2) := fun hh => h hh.symm
      simp [setAttr, getAttr, hne]
    · by_cases h2 : k1 = k2 <;> simp [setAttr, getAttr, h1, h2, h, ih]

theorem beqL_refl_aux (cs : List Elem) (h : ∀ c ∈ cs, beqE c c = true) :
    beqL cs cs = true := by
  induction cs with
  | nil => rfl
  | cons c r ih =>
    simp only [beqL, Bool.and_eq_true]
    exact ⟨h c (List.mem_cons_self c r), ih fun c2 hc => h c2 (List.mem_cons_of_mem c hc)⟩

theorem beqE_refl (e : Elem) : beqE e e = true := by
  induction e using Elem.inductionOn with
  | h t a x cs tl ih => simp [beqE, beqL_refl_aux cs ih]

theorem ne_of_beqE_false {a b : Elem} (h : beqE a b = false) : a ≠ b := by
  intro he
  rw [he, beqE_refl] at h
  exact Bool.noConfusion h

theorem wikidataL_eq (cs : List Elem) : wikidataL cs = cs.map add_wikidata_corresp := by
  induction cs with
  | nil => rfl
  | cons c r ih => simp [wikidataL, ih]

theorem pndL_eq (cs : List Elem) : pndL cs = cs.map convert_pnd_to_gnd := by
  induction cs with
  | nil => rfl
  | cons c r ih => simp [pndL, ih]

theorem langusageL_eq (cs : List Elem) : langusageL cs = cs.map ensure_langusage_spanish := by
  induction cs with
  | nil => rfl
  | cons c r ih => simp [langusageL, ih]

theorem textclassL_eq (cs : List Elem) : textclassL cs = cs.map ensure_textclass_keywords := by
  induction cs with
  | nil => rfl
  | cons c r ih => simp [textclassL, ih]

theorem persnameL_eq (t : String) (cs : List Elem) :
    persnameL t cs = cs.map fun c =>
      if t = respStmtT ∧ c.tag = persNameT ∧ rojasMatch c then canonicalPers
      else normalize_persname_rojas c := by
  induction cs with
  | nil => rfl
  | cons c r ih => simp [persnameL, ih]

theorem tag_wikidata (e : Elem) : (add_wikidata_corresp e).tag = e.tag := by
  cases e; rfl

theorem tag_pnd (e : Elem) : (convert_pnd_to_gnd e).tag = e.tag := by
  cases e; rfl

theorem tag_langusage (e : Elem) : (ensure_langusage_spanish e).tag = e.tag := by
  cases e with
  | mk t a x cs tl =>
    simp only [ensure_langusage_spanish]
    split <;> rfl

theorem attrs_langusage (e : Elem) : (ensure_langusage_spanish e).attrs = e.attrs := by
  cases e with
  | mk t a x cs tl =>
    simp only [ensure_langusage_spanish]
    split <;> rfl

theorem tag_textclass (e : Elem) : (ensure_textclass_keywords e).tag = e.tag := by
  cases e with
  | mk t a x cs tl =>
    simp only [ensure_textclass_keywords]
    split <;> rfl

theorem attrs_textclass (e : Elem) : (ensure_textclass_keywords e).attrs = e.attrs := by
  cases e with
  | mk t a x cs tl =>
    simp only [ensure_textclass_keywords]
    split <;> rfl

theorem tag_persname (e : Elem) : (normalize_persname_rojas e).tag = e.tag := by
  cases e; rfl

theorem tag_pubFix (e : Elem) : (pubFix e).tag = e.tag := by
  simp only [pubFix]
  split <;> rfl

theorem tag_caldFix (b : String) (e : Elem) : (caldFix b e).tag = e.tag := by
  simp only [caldFix]
  split <;> rfl

theorem tag_creationFix (ev : Option Elem) (e : Elem) : (creationFix ev e).tag = e.tag := by
  simp only [creationFix]
  split
  · rfl
  · cases ev <;> rfl

/- ### Idempotence of the attribute rules (1 and 2) -/

theorem append_ne_empty_left (s t : String) (h : s ≠ "") : s ++ t ≠ "" := by
  intro he
  apply h
  have hl := congrArg String.length he
  rw [String.length_append] at hl
  have h0 : s.length = 0 := by
    have hz : ("" : String).length = 0 := rfl
    omega
  cases s with
  | mk d =>
    have hd : d.length = 0 := h0
    rw [List.length_eq_zero] at hd
    rw [hd]

theorem attrTruthy_false_iff (a : List (String × String)) (k : String) :
    attrTruthy a k = false ↔ (getAttr a k = none ∨ getAttr a k = some "") := by
  cases h : getAttr a k with
  | none => simp [attrTruthy, h]
  | some v => simp [attrTruthy, h]

theorem attrTruthy_setAttr_self (a : List (String × String)) (k v : String) (h : v ≠ "") :
    attrTruthy (setAttr a k v) k = true := by
  simp [attrTruthy, getAttr_setAttr_self, h]

theorem attrTruthy_setAttr_ne (a : List (String × String)) (k v k2 : String) (h : k2 ≠ k) :
    attrTruthy (setAttr a k v) k2 = attrTruthy a k2 := by
  simp [attrTruthy, getAttr_setAttr_ne a k v k2 h]

theorem wikidataAttrs_idem (t : String) (a : List (String × String)) (x : Option String) :
    wikidataAttrs t (wikidataAttrs t a x) x = wikidataAttrs t a x := by
  by_cases hc : t = idnoT ∧ getAttr a "type" = some "wikidata"
  · obtain ⟨ht, hty⟩ := hc
    by_cases hq : pyStrip (x.getD "") ≠ "" ∧ attrTruthy a "corresp" = false
    · have h1 : wikidataAttrs t a x =
          setAttr a "corresp" ("https://www.wikidata.org/wiki/" ++ pyStrip (x.getD "")) := by
        simp only [wikidataAttrs]
        rw [if_pos ⟨ht, hty⟩, if_pos hq]
      rw [h1]
      have hty2 : getAttr (setAttr a "corresp"
          ("https://www.wikidata.org/wiki/" ++ pyStrip (x.getD ""))) "type" = some "wikidata" := by
        rw [getAttr_setAttr_ne _ _ _ _ (by decide)]
        exact hty
      simp only [wikidataAttrs]
      rw [if_pos ⟨ht, hty2⟩, if_neg ?_]
      intro hcon
      rw [attrTruthy_setAttr_self a "corresp" _
        (append_ne_empty_left _ _ (by decide))] at hcon
      exact Bool.noConfusion hcon.2
    · have h1 : wikidataAttrs t a x = a := by
        simp only [wikidataAttrs]
        rw [if_pos ⟨ht, hty⟩, if_neg hq]
      rw [h1]
      exact h1
  · have h1 : wikidataAttrs t a x = a := by
      simp only [wikidataAttrs]
      rw [if_neg hc]
    rw [h1]
    exact h1

theorem wikidata_idem (e : Elem) :
    add_wikidata_corresp (add_wikidata_corresp e) = add_wikidata_corresp e := by
  induction e using Elem.inductionOn with
  | h t a x cs tl ih =>
    simp only [add_wikidata_corresp, wikidataL_eq, wikidataAttrs_idem, List.map_map]
    congr 1
    exact List.map_congr_left fun c hc => ih c hc

theorem pndAttrs_idem (t : String) (a : List (String × String)) (x : Option String) :
    pndAttrs t (pndAttrs t a x) x = pndAttrs t a x := by
  by_cases hc : t = idnoT ∧ getAttr a "type" = some "pnd"
  · obtain ⟨ht, hty⟩ := hc
    by_cases hq : pyStrip (x.getD "") ≠ "" ∧ attrTruthy (setAttr a "type" "gnd") "corresp" = false
    · have h1 : pndAttrs t a x =
          setAttr (setAttr a "type" "gnd") "corresp"
            ("https://d-nb.info/gnd/" ++ pyStrip (x.getD "")) := by
        simp only [pndAttrs]
        rw [if_pos ⟨ht, hty⟩, if_pos hq]
      rw [h1]
      have hty2 : getAttr (setAttr (setAttr a "type" "gnd") "corresp"
          ("https://d-nb.info/gnd/" ++ pyStrip (x.getD ""))) "type" = some "gnd" := by
        rw [getAttr_setAttr_ne _ _ _ _ (by decide), getAttr_setAttr_self]
      simp only [pndAttrs]
      rw [if_neg ?_]
      intro hcon
      rw [hty2] at hcon
      exact (by decide : ("gnd" : String) ≠ "pnd") (Option.some.inj hcon.2)
    · have h1 : pndAttrs t a x = setAttr a "type" "gnd" := by
        simp only [pndAttrs]
        rw [if_pos ⟨ht, hty⟩, if_neg hq]
      rw [h1]
      simp only [pndAttrs]
      rw [if_neg ?_]
      intro hcon
      rw [getAttr_setAttr_self] at hcon
      exact (by decide : ("gnd" : String) ≠ "pnd") (Option.some.inj hcon.2)
  · have h1 : pndAttrs t a x = a := by
      simp only [pndAttrs]
      rw [if_neg hc]
    rw [h1]
    exact h1

theorem pnd_idem (e : Elem) :
    convert_pnd_to_gnd (convert_pnd_to_gnd e) = convert_pnd_to_gnd e := by
  induction e using Elem.inductionOn with
  | h t a x cs tl ih =>
    simp only [convert_pnd_to_gnd, pndL_eq, pndAttrs_idem, List.map_map]
    congr 1
    exact List.map_congr_left fun c hc => ih c hc

/- ### Idempotence of the language-usage rule (3) -/

theorem langusageL_append (l1 l2 : List Elem) :
    langusageL (l1 ++ l2) = langusageL l1 ++ langusageL l2 := by
  induction l1 with
  | nil => rfl
  | cons c r ih => simp [langusageL, ih]

theorem hasChildTag_langusageL (cs : List Elem) (t2 : String) :
    hasChildTag (langusageL cs) t2 = hasChildTag cs t2 := by
  induction cs with
  | nil => rfl
  | cons c r ih =>
    simp only [langusageL, hasChildTag, List.any_cons] at ih ⊢
    rw [tag_langusage c, ih]

theorem langusageL_idem_aux (cs : List Elem)
    (h : ∀ c ∈ cs, ensure_langusage_spanish (ensure_langusage_spanish c) = ensure_langusage_spanish c) :
    langusageL (langusageL cs) = langusageL cs := by
  induction cs with
  | nil => rfl
  | cons c r ih =>
    simp only [langusageL]
    rw [h c (List.mem_cons_self c r), ih fun c2 hc => h c2 (List.mem_cons_of_mem c hc)]

theorem langusage_fix_new : ensure_langusage_spanish langUsageNew = langUsageNew := rfl

theorem langusage_idem (e : Elem) :
    ensure_langusage_spanish (ensure_langusage_spanish e) = ensure_langusage_spanish e := by
  induction e using Elem.inductionOn with
  | h t a x cs tl ih =>
    by_cases hc : t = profileDescT ∧ ¬ hasChildTag cs langUsageT
    · have h1 : ensure_langusage_spanish (Elem.mk t a x cs tl) =
          Elem.mk t a x (langusageL cs ++ [langUsageNew]) tl := by
        simp only [ensure_langusage_spanish]
        rw [if_pos hc]
      rw [h1]
      have h2 : hasChildTag (langusageL cs ++ [langUsageNew]) langUsageT = true := by
        simp [hasChildTag, List.any_append, langUsageNew]
      simp only [ensure_langusage_spanish]
      rw [if_neg fun hcon => hcon.2 h2]
      congr 1
      rw [langusageL_append, langusageL_idem_aux cs ih]
      rfl
    · have h1 : ensure_langusage_spanish (Elem.mk t a x cs tl) =
          Elem.mk t a x (langusageL cs) tl := by
        simp only [ensure_langusage_spanish]
        rw [if_neg hc]
      rw [h1]
      simp only [ensure_langusage_spanish]
      rw [if_neg fun hcon => hc ⟨hcon.1, by rw [hasChildTag_langusageL] at hcon; exact hcon.2⟩]
      congr 1
      exact langusageL_idem_aux cs ih

/- ### Idempotence of the keywords rule (4) -/

theorem textclassL_append (l1 l2 : List Elem) :
    textclassL (l1 ++ l2) = textclassL l1 ++ textclassL l2 := by
  induction l1 with
  | nil => rfl
  | cons c r ih => simp [textclassL, ih]

theorem hasScheme_textclassL (cs : List Elem) (s : String) :
    hasScheme (textclassL cs) s = hasScheme cs s := by
  induction cs with
  | nil => rfl
  | cons c r ih =>
    simp only [textclassL, hasScheme, List.any_cons] at ih ⊢
    rw [tag_textclass c, attrs_textclass c, ih]

theorem hasScheme_append (l1 l2 : List Elem) (s : String) :
    hasScheme (l1 ++ l2) s = (hasScheme l1 s || hasScheme l2 s) := by
  simp [hasScheme, List.any_append]

theorem textclassL_idem_aux (cs : List Elem)
    (h : ∀ c ∈ cs, ensure_textclass_keywords (ensure_textclass_keywords c) = ensure_textclass_keywords c) :
    textclassL (textclassL cs) = textclassL cs := by
  induction cs with
  | nil => rfl
  | cons c r ih =>
    simp only [textclassL]
    rw [h c (List.mem_cons_self c r), ih fun c2 hc => h c2 (List.mem_cons_of_mem c hc)]

theorem textclassL_missing (cs : List Elem) :
    textclassL (missingKeywords cs) = missingKeywords cs := by
  unfold missingKeywords
  split_ifs <;> rfl

theorem hasScheme_missing_bk (cs : List Elem) :
    hasScheme (missingKeywords cs) bkScheme = !hasScheme cs bkScheme := by
  unfold missingKeywords
  split_ifs <;> simp_all <;> decide

theorem hasScheme_missing_gnd (cs : List Elem) :
    hasScheme (missingKeywords cs) gndScheme = !hasScheme cs gndScheme := by
  unfold missingKeywords
  split_ifs <;> simp_all <;> decide

theorem hasScheme_missing_tg (cs : List Elem) :
    hasScheme (missingKeywords cs) tgScheme = !hasScheme cs tgScheme := by
  unfold missingKeywords
  split_ifs <;> simp_all <;> decide

theorem hasScheme_after_bk (cs : List Elem) :
    hasScheme (textclassL cs ++ missingKeywords cs) bkScheme = true := by
  rw [hasScheme_append, hasScheme_textclassL, hasScheme_missing_bk]
  cases hasScheme cs bkScheme <;> rfl

theorem hasScheme_after_gnd (cs : List Elem) :
    hasScheme (textclassL cs ++ missingKeywords cs) gndScheme = true := by
  rw [hasScheme_append, hasScheme_textclassL, hasScheme_missing_gnd]
  cases hasScheme cs gndScheme <;> rfl

theorem hasScheme_after_tg (cs : List Elem) :
    hasScheme (textclassL cs ++ missingKeywords cs) tgScheme = true := by
  rw [hasScheme_append, hasScheme_textclassL, hasScheme_missing_tg]
  cases hasScheme cs tgScheme <;> rfl

theorem missingKeywords_after (cs : List Elem) :
    missingKeywords (textclassL cs ++ missingKeywords cs) = [] := by
  have h1 := hasScheme_after_bk cs
  have h2 := hasScheme_after_gnd cs
  have h3 := hasScheme_after_tg cs
  generalize hX : textclassL cs ++ missingKeywords cs = X at h1 h2 h3 ⊢
  simp [missingKeywords, h1, h2, h3]

theorem textclass_idem (e : Elem) :
    ensure_textclass_keywords (ensure_textclass_keywords e) = ensure_textclass_keywords e := by
  induction e using Elem.inductionOn with
  | h t a x cs tl ih =>
    by_cases ht : t = textClassT
    · have h1 : ensure_textclass_keywords (Elem.mk t a x cs tl) =
          Elem.mk t a x (textclassL cs ++ missingKeywords cs) tl := by
        simp only [ensure_textclass_keywords]
        rw [if_pos ht]
      rw [h1]
      simp only [ensure_textclass_keywords]
      rw [if_pos ht, missingKeywords_after, List.append_nil]
      congr 1
      rw [textclassL_append, textclassL_idem_aux cs ih, textclassL_missing]
    · have h1 : ensure_textclass_keywords (Elem.mk t a x cs tl) =
          Elem.mk t a x (textclassL cs) tl := by
        simp only [ensure_textclass_keywords]
        rw [if_neg ht]
      rw [h1]
      simp only [ensure_textclass_keywords]
      rw [if_neg ht]
      congr 1
      exact textclassL_idem_aux cs ih

/- ### The persName rule: identity off candidates, idempotence under
no-nesting -/

theorem persnameL_append (t : String) (l1 l2 : List Elem) :
    persnameL t (l1 ++ l2) = persnameL t l1 ++ persnameL t l2 := by
  induction l1 with
  | nil => rfl
  | cons c r ih => simp [persnameL, ih]

theorem rojasMatch_canonical : rojasMatch canonicalPers = true := rfl

theorem tag_canonical : canonicalPers.tag = persNameT := rfl

theorem persnameL_id_aux (t : String) (cs : List Elem) :
    (∀ c ∈ cs, hasCand c = false → normalize_persname_rojas c = c) →
    hasCandL t cs = false → persnameL t cs = cs := by
  induction cs with
  | nil => intro _ _; rfl
  | cons c r ihr =>
    intro ih hl
    simp only [hasCandL, Bool.or_eq_false_iff] at hl
    obtain ⟨⟨hA, hB⟩, hC⟩ := hl
    have hcond : ¬(t = respStmtT ∧ c.tag = persNameT ∧ rojasMatch c) := by
      rintro ⟨h1, h2, _⟩
      rw [decide_eq_true h1, decide_eq_true h2] at hA
      exact Bool.noConfusion hA
    simp only [persnameL]
    rw [if_neg hcond, ih c (List.mem_cons_self c r) hB,
      ihr (fun c2 hc2 => ih c2 (List.mem_cons_of_mem c hc2)) hC]

theorem persname_id_of_candFree (e : Elem) :
    hasCand e = false → normalize_persname_rojas e = e := by
  induction e using Elem.inductionOn with
  | h t a x cs tl ih =>
    intro h
    have hl : hasCandL t cs = false := h
    simp only [normalize_persname_rojas]
    rw [persnameL_id_aux t cs ih hl]

theorem persnameL_idem_aux (t : String) (cs : List Elem) :
    (∀ c ∈ cs, noNested c = true →
      normalize_persname_rojas (normalize_persname_rojas c) = normalize_persname_rojas c) →
    noNestedL t cs = true →
    persnameL t (persnameL t cs) = persnameL t cs := by
  induction cs with
  | nil => intro _ _; rfl
  | cons c r ihr =>
    intro ih hl
    simp only [noNestedL, Bool.and_eq_true] at hl
    obtain ⟨⟨hguard, hnc⟩, hnr⟩ := hl
    have htail : persnameL t (persnameL t r) = persnameL t r :=
      ihr (fun c2 hc2 => ih c2 (List.mem_cons_of_mem c hc2)) hnr
    by_cases hcond : t = respStmtT ∧ c.tag = persNameT ∧ rojasMatch c
    · simp only [persnameL, if_pos hcond]
      rw [if_pos ⟨hcond.1, tag_canonical, rojasMatch_canonical⟩, htail]
    · simp only [persnameL, if_neg hcond]
      by_cases hstruct : t = respStmtT ∧ c.tag = persNameT
      · have hcf : hasCand c = false := by
          rw [if_pos hstruct] at hguard
          simpa using hguard
        have hNc : normalize_persname_rojas c = c := persname_id_of_candFree c hcf
        rw [hNc, if_neg hcond, hNc, htail]
      · have hne : ¬(t = respStmtT ∧ (normalize_persname_rojas c).tag = persNameT ∧
            rojasMatch (normalize_persname_rojas c)) := by
          rintro ⟨h1, h2, _⟩
          rw [tag_persname c] at h2
          exact hstruct ⟨h1, h2⟩
        rw [if_neg hne, ih c (List.mem_cons_self c r) hnc, htail]

theorem persname_idem (e : Elem) :
    noNested e = true →
    normalize_persname_rojas (normalize_persname_rojas e) = normalize_persname_rojas e := by
  induction e using Elem.inductionOn with
  | h t a x cs tl ih =>
    intro hn
    have hl : noNestedL t cs = true := hn
    simp only [normalize_persname_rojas]
    rw [persnameL_idem_aux t cs ih hl]

/- ### First-match machinery -/

theorem mfirst_eq (p : String → String → Bool) (f : Elem → Elem) (pt : String) (e : Elem) :
    mfirst p f pt e = if p pt e.tag then some (f e)
      else (mfirstL p f e.tag e.children).map fun cs2 =>
        Elem.mk e.tag e.attrs e.text cs2 e.tail := by
  cases e; rfl

theorem ffirst_eq (p : String → String → Bool) (pt : String) (e : Elem) :
    ffirst p pt e = if p pt e.tag then some e else ffirstL p e.tag e.children := by
  cases e; rfl

theorem msupp_aux (p : String → String → Bool) (f : Elem → Elem) (pt : String) (cs : List Elem)
    (ih : ∀ c ∈ cs, ∀ pt2, (mfirst p f pt2 c).isSome = (ffirst p pt2 c).isSome) :
    (mfirstL p f pt cs).isSome = (ffirstL p pt cs).isSome := by
  induction cs with
  | nil => rfl
  | cons c r ihr =>
    have h1 := ih c (List.mem_cons_self c r) pt
    cases hf : mfirst p f pt c with
    | some c2 =>
      have h2 : (ffirst p pt c).isSome = true := by rw [← h1, hf]; rfl
      obtain ⟨c0, hc0⟩ := Option.isSome_iff_exists.mp h2
      simp [mfirstL, ffirstL, hf, hc0]
    | none =>
      have h2 : (ffirst p pt c).isSome = false := by rw [← h1, hf]; rfl
      have hff : ffirst p pt c = none := by
        cases hcc : ffirst p pt c with
        | none => rfl
        | some c0 => rw [hcc] at h2; exact Bool.noConfusion h2
      simp [mfirstL, ffirstL, hf, hff,
        ihr fun c2 hc2 => ih c2 (List.mem_cons_of_mem c hc2)]

theorem mfirst_isSome (p : String → String → Bool) (f : Elem → Elem) (e : Elem) :
    ∀ pt, (mfirst p f pt e).isSome = (ffirst p pt e).isSome := by
  induction e using Elem.inductionOn with
  | h t a x cs tl ih =>
    intro pt
    by_cases hp : p pt t = true
    · simp [mfirst, ffirst, hp]
    · simp [mfirst, ffirst, hp, msupp_aux p f t cs fun c hc pt2 => ih c hc pt2]

theorem mfirstL_isSome (p : String → String → Bool) (f : Elem → Elem) (pt : String)
    (cs : List Elem) : (mfirstL p f pt cs).isSome = (ffirstL p pt cs).isSome :=
  msupp_aux p f pt cs fun c _ pt2 => mfirst_isSome p f c pt2

theorem mfirst_none_iff (p : String → String → Bool) (f : Elem → Elem) (pt : String)
    (e : Elem) : mfirst p f pt e = none ↔ ffirst p pt e = none := by
  rw [← Option.not_isSome_iff_eq_none, ← Option.not_isSome_iff_eq_none, mfirst_isSome]

theorem mfirstL_none_iff (p : String → String → Bool) (f : Elem → Elem) (pt : String)
    (cs : List Elem) : mfirstL p f pt cs = none ↔ ffirstL p pt cs = none := by
  rw [← Option.not_isSome_iff_eq_none, ← Option.not_isSome_iff_eq_none, mfirstL_isSome]

theorem mfirstL_fix (p : String → String → Bool) (f g : Elem → Elem)
    (htag : ∀ c, (f c).tag = c.tag)
    (hfix : ∀ pt c, p pt c.tag = true → g (f c) = f c) :
    ∀ pt cs cs2, mfirstL p f pt cs = some cs2 → mfirstL p g pt cs2 = some cs2 := by
  intro pt0 cs0
  refine mfirstL.induct p f
    (fun pt e => ∀ e2, mfirst p f pt e = some e2 → mfirst p g pt e2 = some e2)
    (fun pt cs => ∀ cs2, mfirstL p f pt cs = some cs2 → mfirstL p g pt cs2 = some cs2)
    ?_ ?_ ?_ ?_ ?_ pt0 cs0
  · intro pt t a x cs tl hp e2 he2
    simp only [mfirst, hp, if_true] at he2
    obtain rfl := Option.some.inj he2
    have ht2 : p pt (f (Elem.mk t a x cs tl)).tag = true := by
      rw [htag]; exact hp
    rw [mfirst_eq, if_pos ht2, hfix pt _ (by simpa using hp)]
  · intro pt t a x cs tl hp ihL e2 he2
    simp only [mfirst, hp, if_false] at he2
    obtain ⟨cs2, hcs2, rfl⟩ := Option.map_eq_some'.mp he2
    have hg := ihL cs2 hcs2
    simp only [mfirst, hp, if_false, Elem.tag_mk, Elem.children_mk]
    rw [hg]
    rfl
  · intro pt cs2 h
    exact Option.noConfusion h
  · intro pt c r c2 hsome ih1 cs2 h
    simp only [mfirstL, hsome] at h
    obtain rfl := Option.some.inj h
    have hg := ih1 c2 hsome
    simp only [mfirstL, hg]
  · intro pt c r hnone ih1 ihr cs2 h
    simp only [mfirstL, hnone] at h
    obtain ⟨r2, hr2, rfl⟩ := Option.map_eq_some'.mp h
    have hgc : mfirst p g pt c = none :=
      (mfirst_none_iff p g pt c).mpr ((mfirst_none_iff p f pt c).mp hnone)
    simp only [mfirstL, hgc, ihr r2 hr2]
    rfl

theorem mfirst_fix (p : String → String → Bool) (f g : Elem → Elem)
    (htag : ∀ c, (f c).tag = c.tag)
    (hfix : ∀ pt c, p pt c.tag = true → g (f c) = f c) :
    ∀ pt e e2, mfirst p f pt e = some e2 → mfirst p g pt e2 = some e2 := by
  intro pt e e2 he
  cases e with
  | mk t a x cs tl =>
    by_cases hp : p pt t = true
    · simp only [mfirst, hp, if_true] at he
      obtain rfl := Option.some.inj he
      have ht2 : p pt (f (Elem.mk t a x cs tl)).tag = true := by
        rw [htag]; exact hp
      rw [mfirst_eq, if_pos ht2, hfix pt _ (by simpa using hp)]
    · simp only [mfirst, hp, if_false] at he
      obtain ⟨cs2, hcs2, rfl⟩ := Option.map_eq_some'.mp he
      simp only [mfirst, hp, if_false, Elem.tag_mk, Elem.children_mk]
      rw [mfirstL_fix p f g htag hfix t cs cs2 hcs2]
      rfl

theorem mfirstL_keep (p : String → String → Bool) (f : Elem → Elem) :
    ∀ pt cs c0, ffirstL p pt cs = some c0 → f c0 = c0 → mfirstL p f pt cs = some cs := by
  intro pt0 cs0
  refine mfirstL.induct p f
    (fun pt e => ∀ c0, ffirst p pt e = some c0 → f c0 = c0 → mfirst p f pt e = some e)
    (fun pt cs => ∀ c0, ffirstL p pt cs = some c0 → f c0 = c0 → mfirstL p f pt cs = some cs)
    ?_ ?_ ?_ ?_ ?_ pt0 cs0
  · intro pt t a x cs tl hp c0 hf0 hfc
    simp only [ffirst, hp, if_true] at hf0
    obtain rfl := Option.some.inj hf0
    simp only [mfirst, hp, if_true, hfc]
  · intro pt t a x cs tl hp ihL c0 hf0 hfc
    simp only [ffirst, hp, if_false] at hf0
    simp only [mfirst, hp, if_false, ihL c0 hf0 hfc]
    rfl
  · intro pt c0 h
    exact Option.noConfusion h
  · intro pt c r c2 hsome ih1 c0 hf0 hfc
    have hs : (ffirst p pt c).isSome = true := by
      rw [← mfirst_isSome p f, hsome]; rfl
    obtain ⟨c1, hc1⟩ := Option.isSome_iff_exists.mp hs
    simp only [ffirstL, hc1] at hf0
    have hceq : c1 = c0 := Option.some.inj hf0
    subst hceq
    have h3 := ih1 c1 hc1 hfc
    rw [hsome] at h3
    have hc2 : c2 = c := Option.some.inj h3
    subst hc2
    simp only [mfirstL, hsome]
  · intro pt c r hnone ih1 ihr c0 hf0 hfc
    have hff : ffirst p pt c = none := (mfirst_none_iff p f pt c).mp hnone
    simp only [ffirstL, hff] at hf0
    simp only [mfirstL, hnone, ihr c0 hf0 hfc]
    rfl

theorem mfirstL_found (p : String → String → Bool) (f : Elem → Elem)
    (htag : ∀ c, (f c).tag = c.tag) :
    ∀ pt cs c0 cs2, ffirstL p pt cs = some c0 → mfirstL p f pt cs = some cs2 →
      ffirstL p pt cs2 = some (f c0) := by
  intro pt0 cs0
  refine mfirstL.induct p f
    (fun pt e => ∀ c0 e2, ffirst p pt e = some c0 → mfirst p f pt e = some e2 →
      ffirst p pt e2 = some (f c0))
    (fun pt cs => ∀ c0 cs2, ffirstL p pt cs = some c0 → mfirstL p f pt cs = some cs2 →
      ffirstL p pt cs2 = some (f c0))
    ?_ ?_ ?_ ?_ ?_ pt0 cs0
  · intro pt t a x cs tl hp c0 e2 hf0 hm
    simp only [ffirst, hp, if_true] at hf0
    obtain rfl := Option.some.inj hf0
    simp only [mfirst, hp, if_true] at hm
    obtain rfl := Option.some.inj hm
    have ht2 : p pt (f (Elem.mk t a x cs tl)).tag = true := by
      rw [htag]; exact hp
    rw [ffirst_eq, if_pos ht2]
  · intro pt t a x cs tl hp ihL c0 e2 hf0 hm
    simp only [ffirst, hp, if_false] at hf0
    simp only [mfirst, hp, if_false] at hm
    obtain ⟨cs2, hcs2, rfl⟩ := Option.map_eq_some'.mp hm
    simp only [ffirst, hp, if_false, Elem.tag_mk, Elem.children_mk]
    exact ihL c0 cs2 hf0 hcs2
  · intro pt c0 cs2 h
    exact Option.noConfusion h
  · intro pt c r c2 hsome ih1 c0 cs2 hf0 hm
    have hs : (ffirst p pt c).isSome = true := by
      rw [← mfirst_isSome p f, hsome]; rfl
    obtain ⟨c1, hc1⟩ := Option.isSome_iff_exists.mp hs
    simp only [ffirstL, hc1] at hf0
    have hceq : c1 = c0 := Option.some.inj hf0
    subst hceq
    simp only [mfirstL, hsome] at hm
    obtain rfl := Option.some.inj hm
    have h2 := ih1 c1 c2 hc1 hsome
    simp only [ffirstL, h2]
  · intro pt c r hnone ih1 ihr c0 cs2 hf0 hm
    have hff : ffirst p pt c = none := (mfirst_none_iff p f pt c).mp hnone
    simp only [ffirstL, hff] at hf0
    simp only [mfirstL, hnone] at hm
    obtain ⟨r2, hr2, rfl⟩ := Option.map_eq_some'.mp hm
    simp only [ffirstL, hff]
    exact ihr c0 r2 hf0 hr2

/- ### Idempotence of the publisher, corpus-id and creation rules -/

theorem setFirstPublisher_idem (cs cs2 : List Elem) (h : setFirstPublisher cs = some cs2) :
    setFirstPublisher cs2 = some cs2 := by
  induction cs generalizing cs2 with
  | nil => exact Option.noConfusion h
  | cons c r ih =>
    by_cases hc : c.tag = publisherT
    · simp only [setFirstPublisher, if_pos hc] at h
      obtain rfl := Option.some.inj h
      simp only [setFirstPublisher, Elem.tag_mk, Elem.attrs_mk, Elem.text_mk,
        Elem.children_mk, Elem.tail_mk, if_pos hc]
    · simp only [setFirstPublisher, if_neg hc] at h
      obtain ⟨r2, hr2, rfl⟩ := Option.map_eq_some'.mp h
      simp only [setFirstPublisher, if_neg hc, ih r2 hr2]
      rfl

theorem setFirstPublisher_append_none (l1 l2 : List Elem) (h : setFirstPublisher l1 = none) :
    setFirstPublisher (l1 ++ l2) = (setFirstPublisher l2).map (l1 ++ ·) := by
  induction l1 with
  | nil =>
    cases hs : setFirstPublisher l2 <;> simp [hs]
  | cons c r ih =>
    by_cases hc : c.tag = publisherT
    · simp only [setFirstPublisher, if_pos hc] at h
      exact Option.noConfusion h
    · simp only [setFirstPublisher, if_neg hc] at h
      obtain hr : setFirstPublisher r = none := by
        cases hs : setFirstPublisher r
        · rfl
        · rw [hs] at h; exact Option.noConfusion h
      cases hs : setFirstPublisher l2 with
      | none => simp [List.cons_append, setFirstPublisher, hc, ih hr, hs]
      | some v => simp [List.cons_append, setFirstPublisher, hc, ih hr, hs]

theorem pubFix_idem (ps : Elem) : pubFix (pubFix ps) = pubFix ps := by
  cases ps with
  | mk t a x cs tl =>
    cases hs : setFirstPublisher cs with
    | some cs2 =>
      have h1 : pubFix (Elem.mk t a x cs tl) = Elem.mk t a x cs2 tl := by
        simp only [pubFix, Elem.children_mk, hs, Elem.tag_mk, Elem.attrs_mk, Elem.text_mk,
          Elem.tail_mk]
      rw [h1]
      simp only [pubFix, Elem.children_mk, setFirstPublisher_idem cs cs2 hs, Elem.tag_mk,
        Elem.attrs_mk, Elem.text_mk, Elem.tail_mk]
    | none =>
      have h1 : pubFix (Elem.mk t a x cs tl) =
          Elem.mk t a x (cs ++ [Elem.mk publisherT [] (some PUBLISHER_TEXT) [] none]) tl := by
        simp only [pubFix, Elem.children_mk, hs, Elem.tag_mk, Elem.attrs_mk, Elem.text_mk,
          Elem.tail_mk]
      rw [h1]
      have h2 : setFirstPublisher (cs ++ [Elem.mk publisherT [] (some PUBLISHER_TEXT) [] none]) =
          some (cs ++ [Elem.mk publisherT [] (some PUBLISHER_TEXT) [] none]) := by
        rw [setFirstPublisher_append_none cs _ hs]
        rfl
      simp only [pubFix, Elem.children_mk, h2, Elem.tag_mk, Elem.attrs_mk, Elem.text_mk,
        Elem.tail_mk]

theorem publisher_idem (d : Elem) :
    ensure_publisher (ensure_publisher d) = ensure_publisher d := by
  unfold ensure_publisher
  cases hm : mfirst pubPred pubFix "" d with
  | none => simp [hm]
  | some e2 =>
    have h2 := mfirst_fix pubPred pubFix pubFix tag_pubFix
      (fun pt c _ => pubFix_idem c) "" d e2 hm
    simp [hm, h2]

theorem caldFix_idem (b : String) (ps : Elem) : caldFix b (caldFix b ps) = caldFix b ps := by
  by_cases h : hasCaldracorIdno ps.children = true
  · have h1 : caldFix b ps = ps := by simp [caldFix, h]
    rw [h1, h1]
  · have h1 : caldFix b ps = Elem.mk ps.tag ps.attrs ps.text
        (ps.children ++ [Elem.mk idnoT [("type", "caldracor")] (some b) [] none]) ps.tail := by
      simp [caldFix, h]
    rw [h1]
    have h2 : hasCaldracorIdno
        (ps.children ++ [Elem.mk idnoT [("type", "caldracor")] (some b) [] none]) = true := by
      simp [hasCaldracorIdno, List.any_append, getAttr]
    simp [caldFix, h2]

theorem caldracor_idem (b : String) (d : Elem) :
    ensure_caldracor_id b (ensure_caldracor_id b d) = ensure_caldracor_id b d := by
  unfold ensure_caldracor_id
  cases hm : mfirst pubPred (caldFix b) "" d with
  | none => simp [hm]
  | some e2 =>
    have h2 := mfirst_fix pubPred (caldFix b) (caldFix b) (tag_caldFix b)
      (fun pt c _ => caldFix_idem b c) "" d e2 hm
    simp [hm, h2]

theorem creationFix_none (pd : Elem) : creationFix none pd = pd := by
  simp only [creationFix]
  split <;> rfl

theorem creationFix_fix (e0 : Elem) (ev2 : Option Elem) (pd : Elem) :
    creationFix ev2 (creationFix (some e0) pd) = creationFix (some e0) pd := by
  by_cases h : hasChildTag pd.children creationT = true
  · have h1 : creationFix (some e0) pd = pd := by simp [creationFix, h]
    rw [h1]
    simp [creationFix, h]
  · have h1 : creationFix (some e0) pd = Elem.mk pd.tag pd.attrs pd.text
        (pd.children ++
          [Elem.mk creationT [] none [Elem.mk dateT (dateAttrsOf e0) none [] none] none])
        pd.tail := by
      simp [creationFix, h]
    rw [h1]
    have h2 : hasChildTag
        (pd.children ++
          [Elem.mk creationT [] none [Elem.mk dateT (dateAttrsOf e0) none [] none] none])
        creationT = true := by
      simp [hasChildTag, List.any_append]
    simp [creationFix, h2]

theorem creation_idem (d : Elem) :
    ensure_creation_from_events (ensure_creation_from_events d) =
      ensure_creation_from_events d := by
  cases d with
  | mk t a x cs tl =>
    cases hm : mfirstL pdPred (creationFix (eventOf (Elem.mk t a x cs tl))) t cs with
    | none =>
      have hinner : ensure_creation_from_events (Elem.mk t a x cs tl) = Elem.mk t a x cs tl := by
        simp only [ensure_creation_from_events, hm]
      rw [hinner]
      exact hinner
    | some cs2 =>
      have hinner : ensure_creation_from_events (Elem.mk t a x cs tl) = Elem.mk t a x cs2 tl := by
        simp only [ensure_creation_from_events, hm]
      rw [hinner]
      cases hev : eventOf (Elem.mk t a x cs tl) with
      | none =>
        have hs : (ffirstL pdPred t cs).isSome = true := by
          rw [← mfirstL_isSome pdPred (creationFix (eventOf (Elem.mk t a x cs tl))) t cs, hm]
          rfl
        obtain ⟨c0, hc0⟩ := Option.isSome_iff_exists.mp hs
        have hk := mfirstL_keep pdPred (creationFix (eventOf (Elem.mk t a x cs tl))) t cs c0 hc0
          (by rw [hev]; exact creationFix_none c0)
        rw [hm] at hk
        have hcs : cs2 = cs := Option.some.inj hk
        subst hcs
        exact hinner
      | some e0 =>
        have h2 := mfirstL_fix pdPred (creationFix (eventOf (Elem.mk t a x cs tl)))
          (creationFix (eventOf (Elem.mk t a x cs2 tl)))
          (tag_creationFix (eventOf (Elem.mk t a x cs tl)))
          (fun pt c _ => by rw [hev]; exact creationFix_fix e0 _ c) t cs cs2 hm
        simp only [ensure_creation_from_events, h2]

theorem beqL_refl (cs : List Elem) : beqL cs cs = true :=
  beqL_refl_aux cs fun c _ => beqE_refl c

theorem ne_of_beqL_false {a b : List Elem} (h : beqL a b = false) : a ≠ b := by
  intro he
  rw [he, beqL_refl] at h
  exact Bool.noConfusion h

/-- C1: the spec claims every rule of the eight-rule pipeline is
idempotent on every valid input document. This is the amended version:
seven of the eight rules are idempotent on all documents, and the
persName normalizer is idempotent on documents in which no scanned
persName entry (persName child of a respStmt) contains another scanned
entry among its descendants. -/
theorem claim_c1_idempotence :
    (∀ d, add_wikidata_corresp (add_wikidata_corresp d) = add_wikidata_corresp d) ∧
    (∀ d, convert_pnd_to_gnd (convert_pnd_to_gnd d) = convert_pnd_to_gnd d) ∧
    (∀ d, ensure_langusage_spanish (ensure_langusage_spanish d) = ensure_langusage_spanish d) ∧
    (∀ d, ensure_textclass_keywords (ensure_textclass_keywords d) = ensure_textclass_keywords d) ∧
    (∀ d, noNested d = true →
      normalize_persname_rojas (normalize_persname_rojas d) = normalize_persname_rojas d) ∧
    (∀ d, ensure_publisher (ensure_publisher d) = ensure_publisher d) ∧
    (∀ b d, ensure_caldracor_id b (ensure_caldracor_id b d) = ensure_caldracor_id b d) ∧
    (∀ d, ensure_creation_from_events (ensure_creation_from_events d) =
      ensure_creation_from_events d) :=
  ⟨wikidata_idem, pnd_idem, langusage_idem, textclass_idem, persname_idem,
    publisher_idem, caldracor_idem, creation_idem⟩

/-- C1 counterexample: the persName rule is not idempotent as claimed.
On `docNested` — a respStmt holding a non-matching persName that
contains a nested respStmt with a matching persName — one application
rebuilds only the inner entry, and the second application then matches
and rebuilds the outer entry: at path [0,0] the first result still has
the nested respStmt while the second result has a forename child. -/
theorem claim_c1_counterexample :
    tagAt (normalize_persname_rojas docNested) [0, 0] = some respStmtT ∧
    tagAt (normalize_persname_rojas (normalize_persname_rojas docNested)) [0, 0] =
      some forenameT ∧
    normalize_persname_rojas (normalize_persname_rojas docNested) ≠
      normalize_persname_rojas docNested :=
  ⟨rfl, rfl, ne_of_beqE_false rfl⟩

/-- C1 witness: the persName-rule conjunct of the amended idempotence
theorem applied to a concrete nesting-free document. -/
theorem claim_c1_witness :
    noNested docRojas = true ∧
    normalize_persname_rojas (normalize_persname_rojas docRojas) =
      normalize_persname_rojas docRojas :=
  ⟨rfl, claim_c1_idempotence.2.2.2.2.1 docRojas rfl⟩

/-- C2: a scanned persName entry is rebuilt to the canonical form iff
its xml:id is "rojas" or its flattened text contains both "Rojas" and
"Antonio"; a non-matching entry is left byte-identical. Amended: the
byte-identical guarantee holds for a non-matching entry whose subtree
contains no further scanned entry (the rule does descend into
non-matching entries and rebuilds nested matching entries). -/
theorem claim_c2_persname :
    (∀ c, rojasMatch c = true ↔ (getAttr c.attrs xmlIdA = some "rojas" ∨
      (strContains (flatText c) "Rojas" = true ∧
       strContains (flatText c) "Antonio" = true))) ∧
    canonicalPers = Elem.mk persNameT
      [(xmlIdA, "rojas"), ("corresp", "https://orcid.org/0000-0002-8916-4997")] none
      [Elem.mk forenameT [] (some "Antonio") [] none,
       Elem.mk surnameT [] (some "Rojas Castro") [] none] none ∧
    (∀ t a x tl (pre post : List Elem) (c : Elem), t = respStmtT → c.tag = persNameT →
      rojasMatch c = true →
      normalize_persname_rojas (Elem.mk t a x (pre ++ c :: post) tl) =
        Elem.mk t a x (persnameL t pre ++ canonicalPers :: persnameL t post) tl) ∧
    (∀ t a x tl (pre post : List Elem) (c : Elem), t = respStmtT → c.tag = persNameT →
      rojasMatch c = false → hasCand c = false →
      normalize_persname_rojas (Elem.mk t a x (pre ++ c :: post) tl) =
        Elem.mk t a x (persnameL t pre ++ c :: persnameL t post) tl) := by
  refine ⟨?_, rfl, ?_, ?_⟩
  · intro c
    simp [rojasMatch, Bool.or_eq_true, Bool.and_eq_true, beq_iff_eq]
  · intro t a x tl pre post c ht htag hmatch
    simp only [normalize_persname_rojas, persnameL_append, persnameL]
    rw [if_pos ⟨ht, htag, hmatch⟩]
  · intro t a x tl pre post c ht htag hmatch hcf
    simp only [normalize_persname_rojas, persnameL_append, persnameL]
    rw [if_neg fun hcon => by rw [hmatch] at hcon; exact Bool.noConfusion hcon.2.2]
    rw [persname_id_of_candFree c hcf]

/-- C2 counterexample: in `docNested` the outer persName entry is
scanned (a persName child of a respStmt) and does not match, yet the
rule does not leave it byte-identical: its nested matching entry is
rebuilt. -/
theorem claim_c2_counterexample :
    docNested.tag = respStmtT ∧
    docNested.children = [outerPers] ∧
    outerPers.tag = persNameT ∧
    rojasMatch outerPers = false ∧
    (normalize_persname_rojas docNested).children ≠ [outerPers] :=
  ⟨rfl, rfl, rfl, rfl, ne_of_beqL_false rfl⟩

/-- C2 witness: the rebuild conjunct applied to the spec's example
entry, and the byte-identical conjunct applied to an unrelated entry. -/
theorem claim_c2_witness :
    rojasMatch (Elem.mk persNameT [] (some "Rojas Castro, Antonio") [] none) = true ∧
    normalize_persname_rojas (Elem.mk respStmtT [] none
      [Elem.mk persNameT [] (some "Rojas Castro, Antonio") [] none] none) =
      Elem.mk respStmtT [] none [canonicalPers] none ∧
    rojasMatch (Elem.mk persNameT [] (some "Jane Doe") [] none) = false ∧
    normalize_persname_rojas (Elem.mk respStmtT [] none
      [Elem.mk persNameT [] (some "Jane Doe") [] none] none) =
      Elem.mk respStmtT [] none [Elem.mk persNameT [] (some "Jane Doe") [] none] none := by
  refine ⟨rfl, ?_, rfl, ?_⟩
  · have h := claim_c2_persname.2.2.1 respStmtT [] none none [] []
      (Elem.mk persNameT [] (some "Rojas Castro, Antonio") [] none) rfl rfl rfl
    simpa [persnameL] using h
  · have h := claim_c2_persname.2.2.2 respStmtT [] none none [] []
      (Elem.mk persNameT [] (some "Jane Doe") [] none) rfl rfl rfl rfl
    simpa [persnameL] using h

theorem textclassL_id_aux (cs : List Elem) :
    (∀ c ∈ cs, tcFree c = true → ensure_textclass_keywords c = c) →
    tcFreeL cs = true → textclassL cs = cs := by
  induction cs with
  | nil => intro _ _; rfl
  | cons c r ihr =>
    intro ih hl
    simp only [tcFreeL, Bool.and_eq_true] at hl
    simp only [textclassL]
    rw [ih c (List.mem_cons_self c r) hl.1,
      ihr (fun c2 hc2 => ih c2 (List.mem_cons_of_mem c hc2)) hl.2]

theorem textclass_id_of_tcFree (c : Elem) :
    tcFree c = true → ensure_textclass_keywords c = c := by
  induction c using Elem.inductionOn with
  | h t a x cs tl ih =>
    intro h
    simp only [tcFree, Bool.and_eq_true] at h
    obtain ⟨ht, hl⟩ := h
    have ht2 : ¬ t = textClassT := by
      intro he
      rw [decide_eq_true he] at ht
      exact Bool.noConfusion ht
    simp only [ensure_textclass_keywords]
    rw [if_neg ht2, textclassL_id_aux cs ih hl]

/-- C4: for every textClass container the rule adds exactly the fixed
keyword groups whose scheme URI is not yet present among the keywords
children (zero present: exactly kwBK, kwGND, kwTG are appended; one
present: exactly the other two; all present: nothing), keeping every
original child. Amended: an already-present group is left unchanged
provided its own subtree contains no textClass element (the rule does
process textClass elements nested inside an existing group). -/
theorem claim_c4_keywords :
    (∀ a x cs tl,
      ensure_textclass_keywords (Elem.mk textClassT a x cs tl) =
        Elem.mk textClassT a x (textclassL cs ++ missingKeywords cs) tl) ∧
    (∀ cs, hasScheme cs bkScheme = false → hasScheme cs gndScheme = false →
      hasScheme cs tgScheme = false → missingKeywords cs = [kwBK, kwGND, kwTG]) ∧
    (∀ cs, hasScheme cs bkScheme = true → hasScheme cs gndScheme = false →
      hasScheme cs tgScheme = false → missingKeywords cs = [kwGND, kwTG]) ∧
    (∀ cs, hasScheme cs bkScheme = true → hasScheme cs gndScheme = true →
      hasScheme cs tgScheme = true → missingKeywords cs = []) ∧
    (∀ cs, (∀ c ∈ cs, tcFree c = true) → textclassL cs = cs) ∧
    (∀ c, tcFree c = true → ensure_textclass_keywords c = c) := by
  refine ⟨?_, ?_, ?_, ?_, ?_, textclass_id_of_tcFree⟩
  · intro a x cs tl
    simp [ensure_textclass_keywords]
  · intro cs h1 h2 h3
    simp [missingKeywords, h1, h2, h3]
  · intro cs h1 h2 h3
    simp [missingKeywords, h1, h2, h3]
  · intro cs h1 h2 h3
    simp [missingKeywords, h1, h2, h3]
  · intro cs hall
    have hl : tcFreeL cs = true := by
      induction cs with
      | nil => rfl
      | cons c r ihr =>
        simp only [tcFreeL, Bool.and_eq_true]
        exact ⟨hall c (List.mem_cons_self c r),
          ihr fun c2 hc2 => hall c2 (List.mem_cons_of_mem c hc2)⟩
    exact textclassL_id_aux cs (fun c hc _ => textclass_id_of_tcFree c
      (hall c hc)) hl

/-- C4 counterexample: `docKw` is a textClass whose only present group
(BK scheme) pathologically contains a nested textClass element; the
rule adds the two missing groups but also rewrites inside the present
group, so the present group is not left untouched. -/
theorem claim_c4_counterexample :
    hasScheme docKw.children bkScheme = true ∧
    childAt docKw [0] = some kwWithTC ∧
    childAt docKw [0, 0] = some (Elem.mk textClassT [] none [] none) ∧
    childAt (ensure_textclass_keywords docKw) [0, 0] =
      some (Elem.mk textClassT [] none [kwBK, kwGND, kwTG] none) ∧
    childAt (ensure_textclass_keywords docKw) [0] ≠ some kwWithTC := by
  refine ⟨rfl, rfl, rfl, rfl, fun h => ?_⟩
  have h2 : beqE (ensure_textclass_keywords kwWithTC) kwWithTC = false := rfl
  exact ne_of_beqE_false h2 (Option.some.inj h)

/-- C4 witness: the zero-group and one-group counting conjuncts at
concrete containers. -/
theorem claim_c4_witness :
    missingKeywords [] = [kwBK, kwGND, kwTG] ∧
    ensure_textclass_keywords (Elem.mk textClassT [] none [] none) =
      Elem.mk textClassT [] none [kwBK, kwGND, kwTG] none ∧
    missingKeywords [kwBK] = [kwGND, kwTG] ∧
    ensure_textclass_keywords (Elem.mk textClassT [] none [kwBK] none) =
      Elem.mk textClassT [] none [kwBK, kwGND, kwTG] none := by
  refine ⟨claim_c4_keywords.2.1 [] rfl rfl rfl, ?_, ?_, ?_⟩
  · rw [claim_c4_keywords.1 [] none [] none, claim_c4_keywords.2.1 [] rfl rfl rfl]
    rfl
  · exact claim_c4_keywords.2.2.1 [kwBK] rfl rfl rfl
  · rw [claim_c4_keywords.1 [] none [kwBK] none, claim_c4_keywords.2.2.1 [kwBK] rfl rfl rfl]
    rfl

/-- C5 (amended): for every idno node typed "pnd" the rule
unconditionally rewrites the type to "gnd"; it synthesizes the corresp
URL from the trimmed text iff the trimmed text is non-empty and the
corresp attribute is absent or present with an empty value (the
Python-truthiness guard of the source); a corresp present with a
non-empty value, or an empty trimmed text, leaves corresp exactly as
it was. The spec's concrete example holds. -/
theorem claim_c5_gnd :
    (∀ t a x cs tl, t = idnoT → getAttr a "type" = some "pnd" →
      getAttr (convert_pnd_to_gnd (Elem.mk t a x cs tl)).attrs "type" = some "gnd" ∧
      ((getAttr a "corresp" = none ∨ getAttr a "corresp" = some "") →
        pyStrip (x.getD "") ≠ "" →
        getAttr (convert_pnd_to_gnd (Elem.mk t a x cs tl)).attrs "corresp" =
          some ("https://d-nb.info/gnd/" ++ pyStrip (x.getD ""))) ∧
      (((∃ v, getAttr a "corresp" = some v ∧ v ≠ "") ∨ pyStrip (x.getD "") = "") →
        getAttr (convert_pnd_to_gnd (Elem.mk t a x cs tl)).attrs "corresp" =
          getAttr a "corresp")) ∧
    convert_pnd_to_gnd (Elem.mk idnoT [("type", "pnd")] (some "118529579") [] none) =
      Elem.mk idnoT [("type", "gnd"), ("corresp", "https://d-nb.info/gnd/118529579")]
        (some "118529579") [] none := by
  refine ⟨?_, rfl⟩
  intro t a x cs tl ht hty
  have hattrs : (convert_pnd_to_gnd (Elem.mk t a x cs tl)).attrs = pndAttrs t a x := by
    simp [convert_pnd_to_gnd]
  have hcor1 : getAttr (setAttr a "type" "gnd") "corresp" = getAttr a "corresp" :=
    getAttr_setAttr_ne a "type" "gnd" "corresp" (by decide)
  have htru1 : attrTruthy (setAttr a "type" "gnd") "corresp" = attrTruthy a "corresp" :=
    attrTruthy_setAttr_ne a "type" "gnd" "corresp" (by decide)
  refine ⟨?_, ?_, ?_⟩
  · rw [hattrs]
    simp only [pndAttrs]
    rw [if_pos ⟨ht, hty⟩]
    by_cases hq : pyStrip (x.getD "") ≠ "" ∧
        attrTruthy (setAttr a "type" "gnd") "corresp" = false
    · rw [if_pos hq, getAttr_setAttr_ne _ _ _ _ (by decide), getAttr_setAttr_self]
    · rw [if_neg hq, getAttr_setAttr_self]
  · intro hcor hne
    rw [hattrs]
    simp only [pndAttrs]
    rw [if_pos ⟨ht, hty⟩,
      if_pos ⟨hne, by rw [htru1]; exact (attrTruthy_false_iff a "corresp").mpr hcor⟩,
      getAttr_setAttr_self]
  · intro hdisj
    rw [hattrs]
    simp only [pndAttrs]
    rw [if_pos ⟨ht, hty⟩, if_neg ?_, hcor1]
    rintro ⟨hne, hfalse⟩
    rw [htru1] at hfalse
    rcases hdisj with ⟨v, hv, hvne⟩ | h
    · rcases (attrTruthy_false_iff a "corresp").mp hfalse with h0 | h0
      · rw [hv] at h0
        exact Option.noConfusion h0
      · rw [hv] at h0
        exact hvne (Option.some.inj h0)
    · exact hne h

/-- C5 counterexample: the claim says corresp is synthesized iff the
corresp attribute is absent; but on an idno carrying corresp="" the
attribute is present and the program still overwrites it with the GND
URL, because the source guard `not idno.get("corresp")` is also true
for a present empty-string value. -/
theorem claim_c5_counterexample :
    getAttr [("type", "pnd"), ("corresp", "")] "corresp" = some "" ∧
    convert_pnd_to_gnd (Elem.mk idnoT [("type", "pnd"), ("corresp", "")]
      (some "118529579") [] none) =
      Elem.mk idnoT [("type", "gnd"), ("corresp", "https://d-nb.info/gnd/118529579")]
        (some "118529579") [] none :=
  ⟨rfl, rfl⟩

/-- C5 witness: the universal conjunct of the GND theorem applied at
the spec's concrete example node and at a node with a non-empty
corresp. -/
theorem claim_c5_witness :
    getAttr (convert_pnd_to_gnd
      (Elem.mk idnoT [("type", "pnd")] (some "118529579") [] none)).attrs "type" =
        some "gnd" ∧
    getAttr (convert_pnd_to_gnd
      (Elem.mk idnoT [("type", "pnd")] (some "118529579") [] none)).attrs "corresp" =
        some ("https://d-nb.info/gnd/" ++ pyStrip ((some "118529579").getD "")) ∧
    getAttr (convert_pnd_to_gnd
      (Elem.mk idnoT [("type", "pnd"), ("corresp", "X")] (some "118529579") [] none)).attrs
        "corresp" = getAttr [("type", "pnd"), ("corresp", "X")] "corresp" :=
  ⟨(claim_c5_gnd.1 idnoT [("type", "pnd")] (some "118529579") [] none rfl rfl).1,
   (claim_c5_gnd.1 idnoT [("type", "pnd")] (some "118529579") [] none rfl rfl).2.1
     (Or.inl rfl) (by decide),
   (claim_c5_gnd.1 idnoT [("type", "pnd"), ("corresp", "X")] (some "118529579") [] none
     rfl rfl).2.2 (Or.inl ⟨"X", rfl, by decide⟩)⟩

/-- C6 (amended): for every idno node typed "wikidata" the rule sets
corresp to the URL built from the trimmed text iff the trimmed text is
non-empty and the corresp attribute is absent or present with an empty
value (the Python-truthiness guard of the source); a node with empty
trimmed text gains no attribute; a corresp present with a non-empty
value is never overwritten (the attribute list is left exactly as it
was). The spec's Q42 example holds. -/
theorem claim_c6_wikidata :
    (∀ t a x cs tl, t = idnoT → getAttr a "type" = some "wikidata" →
      (pyStrip (x.getD "") ≠ "" →
        (getAttr a "corresp" = none ∨ getAttr a "corresp" = some "") →
        (add_wikidata_corresp (Elem.mk t a x cs tl)).attrs =
          setAttr a "corresp" ("https://www.wikidata.org/wiki/" ++ pyStrip (x.getD ""))) ∧
      (pyStrip (x.getD "") = "" →
        (add_wikidata_corresp (Elem.mk t a x cs tl)).attrs = a) ∧
      (∀ v, getAttr a "corresp" = some v → v ≠ "" →
        (add_wikidata_corresp (Elem.mk t a x cs tl)).attrs = a)) ∧
    add_wikidata_corresp (Elem.mk idnoT [("type", "wikidata")] (some "Q42") [] none) =
      Elem.mk idnoT [("type", "wikidata"), ("corresp", "https://www.wikidata.org/wiki/Q42")]
        (some "Q42") [] none := by
  refine ⟨?_, rfl⟩
  intro t a x cs tl ht hty
  have hattrs : (add_wikidata_corresp (Elem.mk t a x cs tl)).attrs = wikidataAttrs t a x := by
    simp [add_wikidata_corresp]
  refine ⟨?_, ?_, ?_⟩
  · intro hne hcor
    rw [hattrs]
    simp only [wikidataAttrs]
    rw [if_pos ⟨ht, hty⟩, if_pos ⟨hne, (attrTruthy_false_iff a "corresp").mpr hcor⟩]
  · intro hempty
    rw [hattrs]
    simp only [wikidataAttrs]
    rw [if_pos ⟨ht, hty⟩, if_neg fun hcon => hcon.1 hempty]
  · intro v hv hvne
    rw [hattrs]
    simp only [wikidataAttrs]
    rw [if_pos ⟨ht, hty⟩, if_neg ?_]
    rintro ⟨_, hfalse⟩
    rcases (attrTruthy_false_iff a "corresp").mp hfalse with h0 | h0
    · rw [hv] at h0
      exact Option.noConfusion h0
    · rw [hv] at h0
      exact hvne (Option.some.inj h0)

/-- C6 counterexample: the claim says an existing corresp attribute is
never overwritten regardless of its value; but on an idno carrying
corresp="" the program overwrites it with the Wikidata URL, because the
source guard `not idno.get("corresp")` is also true for a present
empty-string value. -/
theorem claim_c6_counterexample :
    getAttr [("type", "wikidata"), ("corresp", "")] "corresp" = some "" ∧
    add_wikidata_corresp (Elem.mk idnoT [("type", "wikidata"), ("corresp", "")]
      (some "Q42") [] none) =
      Elem.mk idnoT [("type", "wikidata"), ("corresp", "https://www.wikidata.org/wiki/Q42")]
        (some "Q42") [] none :=
  ⟨rfl, rfl⟩

/-- C6 witness: the universal conjunct of the Wikidata theorem applied
at the spec's Q42 node and at a node carrying a non-empty corresp. -/
theorem claim_c6_witness :
    (add_wikidata_corresp
      (Elem.mk idnoT [("type", "wikidata")] (some "Q42") [] none)).attrs =
      setAttr [("type", "wikidata")] "corresp"
        ("https://www.wikidata.org/wiki/" ++ pyStrip ((some "Q42").getD "")) ∧
    (add_wikidata_corresp
      (Elem.mk idnoT [("type", "wikidata"), ("corresp", "X")] (some "Q42") [] none)).attrs =
      [("type", "wikidata"), ("corresp", "X")] :=
  ⟨(claim_c6_wikidata.1 idnoT [("type", "wikidata")] (some "Q42") [] none rfl rfl).1
      (by decide) (Or.inl rfl),
   (claim_c6_wikidata.1 idnoT [("type", "wikidata"), ("corresp", "X")] (some "Q42") [] none
      rfl rfl).2.2 "X" rfl (by decide)⟩

theorem mfirst_found (p : String → String → Bool) (f : Elem → Elem)
    (htag : ∀ c, (f c).tag = c.tag) :
    ∀ pt e c0 e2, ffirst p pt e = some c0 → mfirst p f pt e = some e2 →
      ffirst p pt e2 = some (f c0) := by
  intro pt e c0 e2 hf hm
  cases e with
  | mk t a x cs tl =>
    by_cases hp : p pt t = true
    · simp only [ffirst, hp, if_true] at hf
      obtain rfl := Option.some.inj hf
      simp only [mfirst, hp, if_true] at hm
      obtain rfl := Option.some.inj hm
      rw [ffirst_eq, if_pos (show p pt (f _).tag = true by rw [htag]; simpa using hp)]
    · simp only [ffirst, hp, if_false] at hf
      simp only [mfirst, hp, if_false] at hm
      obtain ⟨cs2, hcs2, rfl⟩ := Option.map_eq_some'.mp hm
      simp only [ffirst, hp, if_false, Elem.tag_mk, Elem.children_mk]
      exact mfirstL_found p f htag t cs c0 cs2 hf hcs2

theorem mfirst_keep (p : String → String → Bool) (f : Elem → Elem) :
    ∀ pt e c0, ffirst p pt e = some c0 → f c0 = c0 → mfirst p f pt e = some e := by
  intro pt e c0 hf hfc
  cases e with
  | mk t a x cs tl =>
    by_cases hp : p pt t = true
    · simp only [ffirst, hp, if_true] at hf
      obtain rfl := Option.some.inj hf
      simp only [mfirst, hp, if_true, hfc]
    · simp only [ffirst, hp, if_false] at hf
      simp only [mfirst, hp, if_false, mfirstL_keep p f t cs c0 hf hfc]
      rfl

theorem setFirstPublisher_find (cs cs2 : List Elem) (h : setFirstPublisher cs = some cs2) :
    ∃ c, cs2.find? (fun c => decide (c.tag = publisherT)) = some c ∧
      c.text = some PUBLISHER_TEXT := by
  induction cs generalizing cs2 with
  | nil => exact Option.noConfusion h
  | cons c r ih =>
    by_cases hc : c.tag = publisherT
    · simp only [setFirstPublisher, if_pos hc] at h
      obtain rfl := Option.some.inj h
      refine ⟨Elem.mk c.tag c.attrs (some PUBLISHER_TEXT) c.children c.tail, ?_, rfl⟩
      simp [List.find?_cons, hc]
    · simp only [setFirstPublisher, if_neg hc] at h
      obtain ⟨r2, hr2, rfl⟩ := Option.map_eq_some'.mp h
      obtain ⟨c2, hfind, htext⟩ := ih r2 hr2
      refine ⟨c2, ?_, htext⟩
      simp [List.find?_cons, hc, hfind]

theorem setFirstPublisher_none_nopub (cs : List Elem) (h : setFirstPublisher cs = none) :
    cs.countP (fun c => decide (c.tag = publisherT)) = 0 ∧
    cs.find? (fun c => decide (c.tag = publisherT)) = none := by
  induction cs with
  | nil => exact ⟨rfl, rfl⟩
  | cons c r ih =>
    by_cases hc : c.tag = publisherT
    · simp only [setFirstPublisher, if_pos hc] at h
      exact Option.noConfusion h
    · simp only [setFirstPublisher, if_neg hc] at h
      have hr : setFirstPublisher r = none := by
        cases hs : setFirstPublisher r
        · rfl
        · rw [hs] at h; exact Option.noConfusion h
      obtain ⟨h1, h2⟩ := ih hr
      constructor
      · simp [List.countP_cons, hc, h1]
      · simp [List.find?_cons, hc, h2]

theorem setFirstPublisher_countP (cs cs2 : List Elem) (h : setFirstPublisher cs = some cs2) :
    cs2.countP (fun c => decide (c.tag = publisherT)) =
      cs.countP (fun c => decide (c.tag = publisherT)) ∧
    0 < cs.countP (fun c => decide (c.tag = publisherT)) := by
  induction cs generalizing cs2 with
  | nil => exact Option.noConfusion h
  | cons c r ih =>
    by_cases hc : c.tag = publisherT
    · simp only [setFirstPublisher, if_pos hc] at h
      obtain rfl := Option.some.inj h
      simp [List.countP_cons, hc]
    · simp only [setFirstPublisher, if_neg hc] at h
      obtain ⟨r2, hr2, rfl⟩ := Option.map_eq_some'.mp h
      obtain ⟨h1, h2⟩ := ih r2 hr2
      constructor
      · simp [List.countP_cons, hc, h1]
      · simp [List.countP_cons, hc, h2]

/-- C7: if the document has no fileDesc/publicationStmt container the
publisher rule is a no-op; otherwise the first container is rewritten
by find-or-create: afterwards its first publisher child carries the
fixed project text, the number of publisher children is one if there
was none and unchanged otherwise (never a duplicate), and the rule is
idempotent. -/
theorem claim_c7_publisher :
    (∀ d, ffirst pubPred "" d = none → ensure_publisher d = d) ∧
    (∀ d ps, ffirst pubPred "" d = some ps →
      ffirst pubPred "" (ensure_publisher d) = some (pubFix ps)) ∧
    (∀ ps, ∃ c, (pubFix ps).children.find? (fun c => decide (c.tag = publisherT)) = some c ∧
      c.text = some PUBLISHER_TEXT) ∧
    (∀ ps, (pubFix ps).children.countP (fun c => decide (c.tag = publisherT)) =
      if ps.children.countP (fun c => decide (c.tag = publisherT)) = 0 then 1
      else ps.children.countP (fun c => decide (c.tag = publisherT))) ∧
    (∀ d, ensure_publisher (ensure_publisher d) = ensure_publisher d) := by
  refine ⟨?_, ?_, ?_, ?_, publisher_idem⟩
  · intro d hf
    unfold ensure_publisher
    rw [(mfirst_none_iff pubPred pubFix "" d).mpr hf]
    rfl
  · intro d ps hf
    have hs : (mfirst pubPred pubFix "" d).isSome = true := by
      rw [mfirst_isSome, hf]; rfl
    obtain ⟨e2, he2⟩ := Option.isSome_iff_exists.mp hs
    unfold ensure_publisher
    rw [he2]
    exact mfirst_found pubPred pubFix tag_pubFix "" d ps e2 hf he2
  · intro ps
    cases hs : setFirstPublisher ps.children with
    | some cs2 =>
      have h1 : (pubFix ps).children = cs2 := by simp [pubFix, hs]
      rw [h1]
      exact setFirstPublisher_find ps.children cs2 hs
    | none =>
      have h1 : (pubFix ps).children =
          ps.children ++ [Elem.mk publisherT [] (some PUBLISHER_TEXT) [] none] := by
        simp [pubFix, hs]
      rw [h1, List.find?_append, (setFirstPublisher_none_nopub ps.children hs).2]
      exact ⟨_, rfl, rfl⟩
  · intro ps
    cases hs : setFirstPublisher ps.children with
    | some cs2 =>
      have h1 : (pubFix ps).children = cs2 := by simp [pubFix, hs]
      obtain ⟨hcount, hpos⟩ := setFirstPublisher_countP ps.children cs2 hs
      rw [h1, hcount, if_neg (Nat.pos_iff_ne_zero.mp hpos)]
    | none =>
      have h1 : (pubFix ps).children =
          ps.children ++ [Elem.mk publisherT [] (some PUBLISHER_TEXT) [] none] := by
        simp [pubFix, hs]
      rw [h1, List.countP_append, (setFirstPublisher_none_nopub ps.children hs).1, if_pos rfl]
      rfl

/-- C7 witness: the container conjuncts applied at a concrete document
with an empty publicationStmt and at one without any container. -/
theorem claim_c7_witness :
    ffirst pubPred "" docPub = some (Elem.mk publicationStmtT [] none [] none) ∧
    ffirst pubPred "" (ensure_publisher docPub) =
      some (pubFix (Elem.mk publicationStmtT [] none [] none)) ∧
    ffirst pubPred "" docNoPub = none ∧
    ensure_publisher docNoPub = docNoPub :=
  ⟨rfl, claim_c7_publisher.2.1 docPub (Elem.mk publicationStmtT [] none [] none) rfl,
   rfl, claim_c7_publisher.1 docNoPub rfl⟩

/-- C8: if the first fileDesc/publicationStmt container already holds
an idno typed "caldracor" the rule leaves the whole document unchanged
(whatever that idno's text); otherwise it appends to that container an
idno typed "caldracor" whose text is the caller-supplied document id. -/
theorem claim_c8_caldracor :
    (∀ cs, hasCaldracorIdno cs = true ↔
      ∃ c ∈ cs, c.tag = idnoT ∧ getAttr c.attrs "type" = some "caldracor") ∧
    (∀ b d ps, ffirst pubPred "" d = some ps → hasCaldracorIdno ps.children = true →
      ensure_caldracor_id b d = d) ∧
    (∀ b d ps, ffirst pubPred "" d = some ps → hasCaldracorIdno ps.children = false →
      ffirst pubPred "" (ensure_caldracor_id b d) = some
        (Elem.mk ps.tag ps.attrs ps.text
          (ps.children ++ [Elem.mk idnoT [("type", "caldracor")] (some b) [] none])
          ps.tail)) := by
  refine ⟨?_, ?_, ?_⟩
  · intro cs
    simp [hasCaldracorIdno, List.any_eq_true, beq_iff_eq]
  · intro b d ps hf hcald
    have hfc : caldFix b ps = ps := by simp [caldFix, hcald]
    unfold ensure_caldracor_id
    rw [mfirst_keep pubPred (caldFix b) "" d ps hf hfc]
    rfl
  · intro b d ps hf hcald
    have hs : (mfirst pubPred (caldFix b) "" d).isSome = true := by
      rw [mfirst_isSome, hf]; rfl
    obtain ⟨e2, he2⟩ := Option.isSome_iff_exists.mp hs
    unfold ensure_caldracor_id
    rw [he2]
    have h2 := mfirst_found pubPred (caldFix b) (tag_caldFix b) "" d ps e2 hf he2
    have h3 : caldFix b ps = Elem.mk ps.tag ps.attrs ps.text
        (ps.children ++ [Elem.mk idnoT [("type", "caldracor")] (some b) [] none]) ps.tail := by
      simp [caldFix, hcald]
    rw [h3] at h2
    exact h2

/-- C8 witness: the create conjunct at the spec's example id
"comedia42", and the no-clobber conjunct at a container already holding
a caldracor idno with different text. -/
theorem claim_c8_witness :
    hasCaldracorIdno ([] : List Elem) = false ∧
    ffirst pubPred "" (ensure_caldracor_id "comedia42" docPub) =
      some (Elem.mk publicationStmtT [] none
        [Elem.mk idnoT [("type", "caldracor")] (some "comedia42") [] none] none) ∧
    ensure_caldracor_id "comedia42"
      (Elem.mk fileDescT [] none
        [Elem.mk publicationStmtT [] none
          [Elem.mk idnoT [("type", "caldracor")] (some "other") [] none] none] none) =
      Elem.mk fileDescT [] none
        [Elem.mk publicationStmtT [] none
          [Elem.mk idnoT [("type", "caldracor")] (some "other") [] none] none] none := by
  refine ⟨rfl, ?_, ?_⟩
  · have h := claim_c8_caldracor.2.2 "comedia42" docPub
      (Elem.mk publicationStmtT [] none [] none) rfl rfl
    simpa using h
  · exact claim_c8_caldracor.2.1 "comedia42" _
      (Elem.mk publicationStmtT [] none
        [Elem.mk idnoT [("type", "caldracor")] (some "other") [] none] none) rfl rfl

theorem getAttr_mem (l : List (String × String)) (k v : String)
    (h : getAttr l k = some v) : (k, v) ∈ l := by
  induction l with
  | nil => exact Option.noConfusion h
  | cons p r ih =>
    obtain ⟨k1, v1⟩ := p
    by_cases hk : k1 = k
    · subst hk
      simp only [getAttr, if_pos rfl] at h
      obtain rfl := Option.some.inj h
      exact List.mem_cons_self _ _
    · simp only [getAttr, if_neg hk] at h
      exact List.mem_cons_of_mem _ (ih h)

theorem mem_dateAttrsOf (ev : Elem) (k v : String) (h : (k, v) ∈ dateAttrsOf ev) :
    k ∈ (["when", "notBefore", "notAfter"] : List String) ∧
      getAttr ev.attrs k = some v ∧ v ≠ "" := by
  simp only [dateAttrsOf] at h
  obtain ⟨a, ha, hf⟩ := List.mem_filterMap.mp h
  rcases hg : getAttr ev.attrs a with _ | v0
  · rw [hg] at hf
    exact Option.noConfusion hf
  · rw [hg] at hf
    have hf2 : (if v0 ≠ "" then some (a, v0) else none) = some (k, v) := hf
    by_cases hv : v0 ≠ ""
    · rw [if_pos hv] at hf2
      obtain ⟨rfl, rfl⟩ := Prod.mk.inj (Option.some.inj hf2)
      exact ⟨ha, hg, hv⟩
    · rw [if_neg hv] at hf2
      exact Option.noConfusion hf2

theorem dateAttrsOf_spec (ev : Elem) (k : String)
    (hk : k ∈ (["when", "notBefore", "notAfter"] : List String)) :
    getAttr (dateAttrsOf ev) k =
      match getAttr ev.attrs k with
      | some v => if v ≠ "" then some v else none
      | none => none := by
  rcases hw : getAttr ev.attrs "when" with _ | w <;>
    rcases hnb : getAttr ev.attrs "notBefore" with _ | nb <;>
      rcases hna : getAttr ev.attrs "notAfter" with _ | na <;>
        fin_cases hk <;>
          simp only [dateAttrsOf, List.filterMap_cons, List.filterMap_nil, hw, hnb, hna] <;>
            (try split_ifs) <;>
              simp_all [getAttr]

/-- C3: for a document whose first profileDesc has no creation child,
the creation rule selects the first written event (falling back to the
first print event), and appends a creation child holding a date node;
with an existing creation child (even empty), or with no suitable
event, the document is unchanged. Amended: the date node carries
exactly those of when/notBefore/notAfter that the selected event
carries with a non-empty value (an empty-string attribute is not
copied). -/
theorem claim_c3_creation :
    (∀ d pd, firstProfileDesc d = some pd → hasChildTag pd.children creationT = true →
      ensure_creation_from_events d = d) ∧
    (∀ d pd, firstProfileDesc d = some pd → hasChildTag pd.children creationT = false →
      eventOf d = none → ensure_creation_from_events d = d) ∧
    (∀ d pd ev, firstProfileDesc d = some pd → hasChildTag pd.children creationT = false →
      eventOf d = some ev →
      firstProfileDesc (ensure_creation_from_events d) = some
        (Elem.mk pd.tag pd.attrs pd.text
          (pd.children ++ [Elem.mk creationT [] none
            [Elem.mk dateT (dateAttrsOf ev) none [] none] none]) pd.tail)) ∧
    (∀ ev k v, getAttr (dateAttrsOf ev) k = some v →
      k ∈ (["when", "notBefore", "notAfter"] : List String) ∧
        getAttr ev.attrs k = some v ∧ v ≠ "") ∧
    (∀ ev k v, k ∈ (["when", "notBefore", "notAfter"] : List String) →
      getAttr ev.attrs k = some v → v ≠ "" → getAttr (dateAttrsOf ev) k = some v) := by
  refine ⟨?_, ?_, ?_, ?_, ?_⟩
  · intro d pd hf hcr
    cases d with
    | mk t a x cs tl =>
      have hfc : creationFix (eventOf (Elem.mk t a x cs tl)) pd = pd := by
        simp [creationFix, hcr]
      have hk := mfirstL_keep pdPred (creationFix (eventOf (Elem.mk t a x cs tl))) t cs pd hf hfc
      simp only [ensure_creation_from_events, hk]
  · intro d pd hf hcr hev
    cases d with
    | mk t a x cs tl =>
      have hfc : creationFix (eventOf (Elem.mk t a x cs tl)) pd = pd := by
        rw [hev]
        exact creationFix_none pd
      have hk := mfirstL_keep pdPred (creationFix (eventOf (Elem.mk t a x cs tl))) t cs pd hf hfc
      simp only [ensure_creation_from_events, hk]
  · intro d pd ev hf hcr hev
    cases d with
    | mk t a x cs tl =>
      have hs : (mfirstL pdPred (creationFix (eventOf (Elem.mk t a x cs tl))) t cs).isSome
          = true := by
        rw [mfirstL_isSome]
        rw [show ffirstL pdPred t cs = some pd from hf]
        rfl
      obtain ⟨cs2, hcs2⟩ := Option.isSome_iff_exists.mp hs
      have hfound := mfirstL_found pdPred (creationFix (eventOf (Elem.mk t a x cs tl)))
        (tag_creationFix (eventOf (Elem.mk t a x cs tl))) t cs pd cs2 hf hcs2
      have hfc : creationFix (eventOf (Elem.mk t a x cs tl)) pd =
          Elem.mk pd.tag pd.attrs pd.text
            (pd.children ++ [Elem.mk creationT [] none
              [Elem.mk dateT (dateAttrsOf ev) none [] none] none]) pd.tail := by
        rw [hev]
        simp [creationFix, hcr]
      rw [hfc] at hfound
      simp only [ensure_creation_from_events, hcs2]
      exact hfound
  · intro ev k v h
    exact mem_dateAttrsOf ev k v (getAttr_mem _ k v h)
  · intro ev k v hk hg hv
    simp [dateAttrsOf_spec ev k hk, hg, hv]

/-- C3 counterexample: the claim as stated says the date node carries
exactly the attributes the selected event carries; but on an event
carrying when="" and notBefore="1630" the code copies only notBefore —
the empty-valued when is dropped. -/
theorem claim_c3_counterexample :
    getAttr evEmptyWhen.attrs "when" = some "" ∧
    getAttr evEmptyWhen.attrs "notBefore" = some "1630" ∧
    firstProfileDesc docEvEmpty = some (Elem.mk profileDescT [] none [] none) ∧
    eventOf docEvEmpty = some evEmptyWhen ∧
    firstProfileDesc (ensure_creation_from_events docEvEmpty) =
      some (Elem.mk profileDescT [] none
        [Elem.mk creationT [] none
          [Elem.mk dateT [("notBefore", "1630")] none [] none] none] none) ∧
    getAttr [("notBefore", "1630")] "when" = none :=
  ⟨rfl, rfl, rfl, rfl, rfl, rfl⟩

/-- C3 witness: the append conjunct applied at a concrete document
with a written event carrying notBefore/notAfter. -/
theorem claim_c3_witness :
    firstProfileDesc docEvRange = some (Elem.mk profileDescT [] none [] none) ∧
    eventOf docEvRange = some (Elem.mk eventT
      [("type", "written"), ("notBefore", "1630"), ("notAfter", "1640")] none [] none) ∧
    firstProfileDesc (ensure_creation_from_events docEvRange) =
      some (Elem.mk profileDescT [] none
        [Elem.mk creationT [] none
          [Elem.mk dateT [("notBefore", "1630"), ("notAfter", "1640")] none [] none]
          none] none) := by
  refine ⟨rfl, rfl, ?_⟩
  have h := claim_c3_creation.2.2.1 docEvRange (Elem.mk profileDescT [] none [] none)
    (Elem.mk eventT [("type", "written"), ("notBefore", "1630"), ("notAfter", "1640")]
      none [] none) rfl rfl rfl
  simpa using h

/-- C10: in the creation rule a temporal attribute present with an
empty-string value is treated exactly like an absent one — it is not
copied onto the created date node, whose attribute values are all
non-empty. -/
theorem claim_c10_empty_attr :
    (∀ ev k, k ∈ (["when", "notBefore", "notAfter"] : List String) →
      getAttr ev.attrs k = some "" → getAttr (dateAttrsOf ev) k = none) ∧
    (∀ ev k, k ∈ (["when", "notBefore", "notAfter"] : List String) →
      getAttr ev.attrs k = none → getAttr (dateAttrsOf ev) k = none) ∧
    (∀ ev k v, (k, v) ∈ dateAttrsOf ev → v ≠ "") ∧
    (∀ ev pd, hasChildTag pd.children creationT = false →
      creationFix (some ev) pd = Elem.mk pd.tag pd.attrs pd.text
        (pd.children ++ [Elem.mk creationT [] none
          [Elem.mk dateT (dateAttrsOf ev) none [] none] none]) pd.tail) := by
  refine ⟨?_, ?_, ?_, ?_⟩
  · intro ev k hk hg
    simp [dateAttrsOf_spec ev k hk, hg]
  · intro ev k hk hg
    simp [dateAttrsOf_spec ev k hk, hg]
  · intro ev k v h
    exact (mem_dateAttrsOf ev k v h).2.2
  · intro ev pd h
    simp [creationFix, h]

/-- C10 witness: the empty-valued attribute conjunct applied at the
concrete event carrying when="". -/
theorem claim_c10_witness :
    getAttr evEmptyWhen.attrs "when" = some "" ∧
    getAttr (dateAttrsOf evEmptyWhen) "when" = none :=
  ⟨rfl, claim_c10_empty_attr.1 evEmptyWhen "when" (by decide) rfl⟩

/- ### Frame lemmas for the structural-map rules -/

theorem map_id_of (cs : List Elem) (R : Elem → Elem) (h : ∀ c ∈ cs, R c = c) :
    cs.map R = cs := by
  induction cs with
  | nil => rfl
  | cons c r ih =>
    simp [h c (List.mem_cons_self c r), ih fun c2 hc2 => h c2 (List.mem_cons_of_mem c hc2)]

theorem anyNodeL_eq_any (p : String → Elem → Bool) (pt : String) (cs : List Elem) :
    anyNodeL p pt cs = cs.any (anyNode p pt) := by
  induction cs with
  | nil => rfl
  | cons c r ih => simp [anyNodeL, ih]

theorem frameL_of_companion (p : String → Elem → Bool) (R : Elem → Elem) (t : String)
    (cs csR : List Elem) (hcomp : csR = cs.map R)
    (ih : ∀ c ∈ cs, ∀ pt, Frame p pt c (R c)) : FrameL p t cs csR := by
  subst hcomp
  induction cs with
  | nil => exact FrameL.nil t
  | cons c r ihr =>
    exact FrameL.cons t c (R c) r (r.map R) (ih c (List.mem_cons_self c r) t)
      (ihr fun c2 hc2 pt => ih c2 (List.mem_cons_of_mem c hc2) pt)

theorem frame_wikidata (e : Elem) : ∀ pt, Frame wikidataTgt pt e (add_wikidata_corresp e) := by
  induction e using Elem.inductionOn with
  | h t a x cs tl ih =>
    intro pt
    by_cases hT : wikidataTgt pt (Elem.mk t a x cs tl) = true
    · exact Frame.hit pt _ _ hT
    · have hattr : wikidataAttrs t a x = a := by
        simp only [wikidataAttrs]
        rw [if_neg ?_]
        rintro ⟨h1, h2⟩
        apply hT
        simp [wikidataTgt, h1, h2]
      have hR : add_wikidata_corresp (Elem.mk t a x cs tl) =
          Elem.mk t a x (wikidataL cs) tl := by
        simp [add_wikidata_corresp, hattr]
      rw [hR]
      exact Frame.keep pt t a x tl cs (wikidataL cs)
        (frameL_of_companion wikidataTgt add_wikidata_corresp t cs (wikidataL cs)
          (wikidataL_eq cs) ih)

theorem noop_wikidata (e : Elem) :
    ∀ pt, anyNode wikidataTgt pt e = false → add_wikidata_corresp e = e := by
  induction e using Elem.inductionOn with
  | h t a x cs tl ih =>
    intro pt h
    simp only [anyNode, Bool.or_eq_false_iff] at h
    obtain ⟨hp, hl⟩ := h
    have hattr : wikidataAttrs t a x = a := by
      simp only [wikidataAttrs]
      rw [if_neg ?_]
      rintro ⟨h1, h2⟩
      rw [show wikidataTgt pt (Elem.mk t a x cs tl) = true by simp [wikidataTgt, h1, h2]] at hp
      exact Bool.noConfusion hp
    rw [anyNodeL_eq_any] at hl
    have hall := List.any_eq_false.mp hl
    have hcs : wikidataL cs = cs := by
      rw [wikidataL_eq]
      exact map_id_of cs _ fun c hc => ih c hc t (by
        have := hall c hc
        cases hx : anyNode wikidataTgt t c
        · rfl
        · exact absurd hx this)
    simp [add_wikidata_corresp, hattr, hcs]

theorem frame_pnd (e : Elem) : ∀ pt, Frame pndTgt pt e (convert_pnd_to_gnd e) := by
  induction e using Elem.inductionOn with
  | h t a x cs tl ih =>
    intro pt
    by_cases hT : pndTgt pt (Elem.mk t a x cs tl) = true
    · exact Frame.hit pt _ _ hT
    · have hattr : pndAttrs t a x = a := by
        simp only [pndAttrs]
        rw [if_neg ?_]
        rintro ⟨h1, h2⟩
        apply hT
        simp [pndTgt, h1, h2]
      have hR : convert_pnd_to_gnd (Elem.mk t a x cs tl) = Elem.mk t a x (pndL cs) tl := by
        simp [convert_pnd_to_gnd, hattr]
      rw [hR]
      exact Frame.keep pt t a x tl cs (pndL cs)
        (frameL_of_companion pndTgt convert_pnd_to_gnd t cs (pndL cs) (pndL_eq cs) ih)

theorem noop_pnd (e : Elem) :
    ∀ pt, anyNode pndTgt pt e = false → convert_pnd_to_gnd e = e := by
  induction e using Elem.inductionOn with
  | h t a x cs tl ih =>
    intro pt h
    simp only [anyNode, Bool.or_eq_false_iff] at h
    obtain ⟨hp, hl⟩ := h
    have hattr : pndAttrs t a x = a := by
      simp only [pndAttrs]
      rw [if_neg ?_]
      rintro ⟨h1, h2⟩
      rw [show pndTgt pt (Elem.mk t a x cs tl) = true by simp [pndTgt, h1, h2]] at hp
      exact Bool.noConfusion hp
    rw [anyNodeL_eq_any] at hl
    have hall := List.any_eq_false.mp hl
    have hcs : pndL cs = cs := by
      rw [pndL_eq]
      exact map_id_of cs _ fun c hc => ih c hc t (by
        have := hall c hc
        cases hx : anyNode pndTgt t c
        · rfl
        · exact absurd hx this)
    simp [convert_pnd_to_gnd, hattr, hcs]

theorem frame_langusage (e : Elem) :
    ∀ pt, Frame langTgt pt e (ensure_langusage_spanish e) := by
  induction e using Elem.inductionOn with
  | h t a x cs tl ih =>
    intro pt
    by_cases hT : langTgt pt (Elem.mk t a x cs tl) = true
    · exact Frame.hit pt _ _ hT
    · have hcond : ¬ (t = profileDescT ∧ ¬ hasChildTag cs langUsageT) := by
        rintro ⟨h1, h2⟩
        apply hT
        simp only [langTgt, Elem.tag_mk, Elem.children_mk, Bool.and_eq_true,
          decide_eq_true_eq, Bool.not_eq_true']
        exact ⟨h1, by cases hx : hasChildTag cs langUsageT
                      · rfl
                      · exact absurd hx h2⟩
      have hR : ensure_langusage_spanish (Elem.mk t a x cs tl) =
          Elem.mk t a x (langusageL cs) tl := by
        simp only [ensure_langusage_spanish]
        rw [if_neg hcond]
      rw [hR]
      exact Frame.keep pt t a x tl cs (langusageL cs)
        (frameL_of_companion langTgt ensure_langusage_spanish t cs (langusageL cs)
          (langusageL_eq cs) ih)

theorem noop_langusage (e : Elem) :
    ∀ pt, anyNode langTgt pt e = false → ensure_langusage_spanish e = e := by
  induction e using Elem.inductionOn with
  | h t a x cs tl ih =>
    intro pt h
    simp only [anyNode, Bool.or_eq_false_iff] at h
    obtain ⟨hp, hl⟩ := h
    have hcond : ¬ (t = profileDescT ∧ ¬ hasChildTag cs langUsageT) := by
      rintro ⟨h1, h2⟩
      have : langTgt pt (Elem.mk t a x cs tl) = true := by
        simp only [langTgt, Elem.tag_mk, Elem.children_mk, Bool.and_eq_true,
          decide_eq_true_eq, Bool.not_eq_true']
        exact ⟨h1, by cases hx : hasChildTag cs langUsageT
                      · rfl
                      · exact absurd hx h2⟩
      rw [this] at hp
      exact Bool.noConfusion hp
    rw [anyNodeL_eq_any] at hl
    have hall := List.any_eq_false.mp hl
    have hcs : langusageL cs = cs := by
      rw [langusageL_eq]
      exact map_id_of cs _ fun c hc => ih c hc t (by
        have := hall c hc
        cases hx : anyNode langTgt t c
        · rfl
        · exact absurd hx this)
    simp only [ensure_langusage_spanish]
    rw [if_neg hcond, hcs]

theorem frame_textclass (e : Elem) :
    ∀ pt, Frame tcTgt pt e (ensure_textclass_keywords e) := by
  induction e using Elem.inductionOn with
  | h t a x cs tl ih =>
    intro pt
    by_cases hT : tcTgt pt (Elem.mk t a x cs tl) = true
    · exact Frame.hit pt _ _ hT
    · have hkeepL : FrameL tcTgt t cs (textclassL cs) :=
        frameL_of_companion tcTgt ensure_textclass_keywords t cs (textclassL cs)
          (textclassL_eq cs) ih
      by_cases ht : t = textClassT
      · by_cases hb : hasScheme cs bkScheme = true
        · by_cases hg : hasScheme cs gndScheme = true
          · by_cases htg : hasScheme cs tgScheme = true
            · have hmiss : missingKeywords cs = [] := by
                simp [missingKeywords, hb, hg, htg]
              have hR : ensure_textclass_keywords (Elem.mk t a x cs tl) =
                  Elem.mk t a x (textclassL cs) tl := by
                simp only [ensure_textclass_keywords]
                rw [if_pos ht, hmiss, List.append_nil]
              rw [hR]
              exact Frame.keep pt t a x tl cs (textclassL cs) hkeepL
            · exact absurd (by simp [tcTgt, ht, hb, hg, htg]) hT
          · exact absurd (by simp [tcTgt, ht, hb, hg]) hT
        · exact absurd (by simp [tcTgt, ht, hb]) hT
      · have hR : ensure_textclass_keywords (Elem.mk t a x cs tl) =
            Elem.mk t a x (textclassL cs) tl := by
          simp only [ensure_textclass_keywords]
          rw [if_neg ht]
        rw [hR]
        exact Frame.keep pt t a x tl cs (textclassL cs) hkeepL

theorem noop_textclass (e : Elem) :
    ∀ pt, anyNode tcTgt pt e = false → ensure_textclass_keywords e = e := by
  induction e using Elem.inductionOn with
  | h t a x cs tl ih =>
    intro pt h
    simp only [anyNode, Bool.or_eq_false_iff] at h
    obtain ⟨hp, hl⟩ := h
    rw [anyNodeL_eq_any] at hl
    have hall := List.any_eq_false.mp hl
    have hcs : textclassL cs = cs := by
      rw [textclassL_eq]
      exact map_id_of cs _ fun c hc => ih c hc t (by
        have := hall c hc
        cases hx : anyNode tcTgt t c
        · rfl
        · exact absurd hx this)
    by_cases ht : t = textClassT
    · by_cases hb : hasScheme cs bkScheme = true
      · by_cases hg : hasScheme cs gndScheme = true
        · by_cases htg : hasScheme cs tgScheme = true
          · have hmiss : missingKeywords cs = [] := by
              simp [missingKeywords, hb, hg, htg]
            simp only [ensure_textclass_keywords]
            rw [if_pos ht, hmiss, List.append_nil, hcs]
          · rw [show tcTgt pt (Elem.mk t a x cs tl) = true by
              simp [tcTgt, ht, hb, hg, htg]] at hp
            exact Bool.noConfusion hp
        · rw [show tcTgt pt (Elem.mk t a x cs tl) = true by
            simp [tcTgt, ht, hb, hg]] at hp
          exact Bool.noConfusion hp
      · rw [show tcTgt pt (Elem.mk t a x cs tl) = true by
          simp [tcTgt, ht, hb]] at hp
        exact Bool.noConfusion hp
    · simp only [ensure_textclass_keywords]
      rw [if_neg ht, hcs]

theorem frameL_pers (t : String) (cs : List Elem)
    (ih : ∀ c ∈ cs, ∀ pt, Frame persTgt pt c (normalize_persname_rojas c)) :
    FrameL persTgt t cs (persnameL t cs) := by
  induction cs with
  | nil => exact FrameL.nil t
  | cons c r ihr =>
    have htail : FrameL persTgt t r (persnameL t r) :=
      ihr fun c2 hc2 pt => ih c2 (List.mem_cons_of_mem c hc2) pt
    by_cases hcond : t = respStmtT ∧ c.tag = persNameT ∧ rojasMatch c
    · have hhead : Frame persTgt t c canonicalPers :=
        Frame.hit t c canonicalPers (by simp [persTgt, hcond.1, hcond.2.1, hcond.2.2])
      simp only [persnameL, if_pos hcond]
      exact FrameL.cons t c canonicalPers r (persnameL t r) hhead htail
    · simp only [persnameL, if_neg hcond]
      exact FrameL.cons t c _ r _ (ih c (List.mem_cons_self c r) t) htail

theorem frame_pers (e : Elem) :
    ∀ pt, Frame persTgt pt e (normalize_persname_rojas e) := by
  induction e using Elem.inductionOn with
  | h t a x cs tl ih =>
    intro pt
    have hR : normalize_persname_rojas (Elem.mk t a x cs tl) =
        Elem.mk t a x (persnameL t cs) tl := by
      simp [normalize_persname_rojas]
    rw [hR]
    exact Frame.keep pt t a x tl cs (persnameL t cs) (frameL_pers t cs ih)

theorem noop_pers (e : Elem) :
    ∀ pt, anyNode persTgt pt e = false → normalize_persname_rojas e = e := by
  induction e using Elem.inductionOn with
  | h t a x cs tl ih =>
    intro pt h
    simp only [anyNode, Bool.or_eq_false_iff] at h
    obtain ⟨_, hl⟩ := h
    rw [anyNodeL_eq_any] at hl
    have hall := List.any_eq_false.mp hl
    have hcs : persnameL t cs = cs := by
      rw [persnameL_eq]
      apply map_id_of
      intro c hc
      have hx : anyNode persTgt t c = false := by
        have := hall c hc
        cases hx2 : anyNode persTgt t c
        · rfl
        · exact absurd hx2 this
      have hcfalse : persTgt t c = false := by
        cases c with
        | mk tc ac xc csc tlc =>
          simp only [anyNode, Bool.or_eq_false_iff] at hx
          exact hx.1
      have hcond : ¬(t = respStmtT ∧ c.tag = persNameT ∧ rojasMatch c) := by
        rintro ⟨h1, h2, h3⟩
        rw [show persTgt t c = true by simp [persTgt, h1, h2, h3]] at hcfalse
        exact Bool.noConfusion hcfalse
      rw [if_neg hcond]
      exact ih c hc t hx
    simp only [normalize_persname_rojas]
    rw [hcs]

theorem frameOne_of_mfirstL (p : String → String → Bool) (f : Elem → Elem) :
    ∀ pt cs cs2, mfirstL p f pt cs = some cs2 →
      ∃ pre c c2 post, cs = pre ++ c :: post ∧ cs2 = pre ++ c2 :: post ∧
        FrameOne p f pt c c2 := by
  intro pt0 cs0
  refine mfirstL.induct p f
    (fun pt e => ∀ e2, mfirst p f pt e = some e2 → FrameOne p f pt e e2)
    (fun pt cs => ∀ cs2, mfirstL p f pt cs = some cs2 →
      ∃ pre c c2 post, cs = pre ++ c :: post ∧ cs2 = pre ++ c2 :: post ∧
        FrameOne p f pt c c2)
    ?_ ?_ ?_ ?_ ?_ pt0 cs0
  · intro pt t a x cs tl hp e2 he2
    simp only [mfirst, hp, if_true] at he2
    obtain rfl := Option.some.inj he2
    exact FrameOne.hit pt (Elem.mk t a x cs tl) (by simpa using hp)
  · intro pt t a x cs tl hp ihL e2 he2
    simp only [mfirst, hp, if_false] at he2
    obtain ⟨cs2, hcs2, rfl⟩ := Option.map_eq_some'.mp he2
    obtain ⟨pre, c, c2, post, rfl, rfl, hone⟩ := ihL cs2 hcs2
    exact FrameOne.keep pt t a x tl pre post c c2 hone
  · intro pt cs2 h
    exact Option.noConfusion h
  · intro pt c r c2 hsome ih1 cs2 h
    simp only [mfirstL, hsome] at h
    obtain rfl := Option.some.inj h
    exact ⟨[], c, c2, r, rfl, rfl, ih1 c2 hsome⟩
  · intro pt c r hnone ih1 ihr cs2 h
    simp only [mfirstL, hnone] at h
    obtain ⟨r2, hr2, rfl⟩ := Option.map_eq_some'.mp h
    obtain ⟨pre, c1, c2, post, rfl, rfl, hone⟩ := ihr r2 hr2
    exact ⟨c :: pre, c1, c2, post, rfl, rfl, hone⟩

theorem frameOne_of_mfirst (p : String → String → Bool) (f : Elem → Elem) :
    ∀ pt e e2, mfirst p f pt e = some e2 → FrameOne p f pt e e2 := by
  intro pt e e2 he
  cases e with
  | mk t a x cs tl =>
    by_cases hp : p pt t = true
    · simp only [mfirst, hp, if_true] at he
      obtain rfl := Option.some.inj he
      exact FrameOne.hit pt (Elem.mk t a x cs tl) (by simpa using hp)
    · simp only [mfirst, hp, if_false] at he
      obtain ⟨cs2, hcs2, rfl⟩ := Option.map_eq_some'.mp he
      obtain ⟨pre, c, c2, post, rfl, rfl, hone⟩ := frameOne_of_mfirstL p f t cs cs2 hcs2
      exact FrameOne.keep pt t a x tl pre post c c2 hone

/-- C9: every rule mutates only its own targeted subtrees. For each of
the five structural-map rules, the output is Frame-related to the input
for that rule's target predicate (every node outside a targeted subtree
keeps tag, attributes, text and tail, with children rewritten
pointwise), and the rule is the identity when no node is targeted. For
each of the three first-match rules, the output is either identical to
the input or differs from it at exactly one targeted node (all nodes
off the path to it being equal, path nodes keeping tag, attributes,
text and tail), and the rule is the identity when no target exists. -/
theorem claim_c9_frame :
    (∀ d pt, Frame wikidataTgt pt d (add_wikidata_corresp d)) ∧
    (∀ d pt, anyNode wikidataTgt pt d = false → add_wikidata_corresp d = d) ∧
    (∀ d pt, Frame pndTgt pt d (convert_pnd_to_gnd d)) ∧
    (∀ d pt, anyNode pndTgt pt d = false → convert_pnd_to_gnd d = d) ∧
    (∀ d pt, Frame langTgt pt d (ensure_langusage_spanish d)) ∧
    (∀ d pt, anyNode langTgt pt d = false → ensure_langusage_spanish d = d) ∧
    (∀ d pt, Frame tcTgt pt d (ensure_textclass_keywords d)) ∧
    (∀ d pt, anyNode tcTgt pt d = false → ensure_textclass_keywords d = d) ∧
    (∀ d pt, Frame persTgt pt d (normalize_persname_rojas d)) ∧
    (∀ d pt, anyNode persTgt pt d = false → normalize_persname_rojas d = d) ∧
    (∀ d, ensure_publisher d = d ∨ FrameOne pubPred pubFix "" d (ensure_publisher d)) ∧
    (∀ d, ffirst pubPred "" d = none → ensure_publisher d = d) ∧
    (∀ b d, ensure_caldracor_id b d = d ∨
      FrameOne pubPred (caldFix b) "" d (ensure_caldracor_id b d)) ∧
    (∀ b d, ffirst pubPred "" d = none → ensure_caldracor_id b d = d) ∧
    (∀ d, ensure_creation_from_events d = d ∨
      FrameOne pdPred (creationFix (eventOf d)) "" d (ensure_creation_from_events d)) ∧
    (∀ d, firstProfileDesc d = none → ensure_creation_from_events d = d) := by
  refine ⟨fun d pt => frame_wikidata d pt, fun d pt => noop_wikidata d pt,
    fun d pt => frame_pnd d pt, fun d pt => noop_pnd d pt,
    fun d pt => frame_langusage d pt, fun d pt => noop_langusage d pt,
    fun d pt => frame_textclass d pt, fun d pt => noop_textclass d pt,
    fun d pt => frame_pers d pt, fun d pt => noop_pers d pt,
    ?_, ?_, ?_, ?_, ?_, ?_⟩
  · intro d
    cases hm : mfirst pubPred pubFix "" d with
    | none =>
      left
      unfold ensure_publisher
      rw [hm]
      rfl
    | some e2 =>
      right
      have he : ensure_publisher d = e2 := by
        unfold ensure_publisher
        rw [hm]
        rfl
      rw [he]
      exact frameOne_of_mfirst pubPred pubFix "" d e2 hm
  · intro d hf
    unfold ensure_publisher
    rw [(mfirst_none_iff pubPred pubFix "" d).mpr hf]
    rfl
  · intro b d
    cases hm : mfirst pubPred (caldFix b) "" d with
    | none =>
      left
      unfold ensure_caldracor_id
      rw [hm]
      rfl
    | some e2 =>
      right
      have he : ensure_caldracor_id b d = e2 := by
        unfold ensure_caldracor_id
        rw [hm]
        rfl
      rw [he]
      exact frameOne_of_mfirst pubPred (caldFix b) "" d e2 hm
  · intro b d hf
    unfold ensure_caldracor_id
    rw [(mfirst_none_iff pubPred (caldFix b) "" d).mpr hf]
    rfl
  · intro d
    cases d with
    | mk t a x cs tl =>
      cases hm : mfirstL pdPred (creationFix (eventOf (Elem.mk t a x cs tl))) t cs with
      | none =>
        left
        simp only [ensure_creation_from_events, hm]
      | some cs2 =>
        right
        have he : ensure_creation_from_events (Elem.mk t a x cs tl) =
            Elem.mk t a x cs2 tl := by
          simp only [ensure_creation_from_events, hm]
        rw [he]
        obtain ⟨pre, c, c2, post, hcs, hcs2, hone⟩ :=
          frameOne_of_mfirstL pdPred (creationFix (eventOf (Elem.mk t a x cs tl))) t cs cs2 hm
        subst hcs
        subst hcs2
        exact FrameOne.keep "" t a x tl pre post c c2 hone
  · intro d hf
    cases d with
    | mk t a x cs tl =>
      have hm : mfirstL pdPred (creationFix (eventOf (Elem.mk t a x cs tl))) t cs = none :=
        (mfirstL_none_iff pdPred _ t cs).mpr hf
      simp only [ensure_creation_from_events, hm]

/-- C9 witness: the no-op conjuncts applied at a concrete document that
contains none of the rules' targets. -/
theorem claim_c9_witness :
    anyNode wikidataTgt "" docNoPub = false ∧
    add_wikidata_corresp docNoPub = docNoPub ∧
    ffirst pubPred "" docNoPub = none ∧
    ensure_publisher docNoPub = docNoPub ∧
    firstProfileDesc docNoPub = none ∧
    ensure_creation_from_events docNoPub = docNoPub :=
  ⟨rfl, claim_c9_frame.2.1 docNoPub "" rfl, rfl,
   claim_c9_frame.2.2.2.2.2.2.2.2.2.2.2.1 docNoPub rfl, rfl,
   claim_c9_frame.2.2.2.2.2.2.2.2.2.2.2.2.2.2.2 docNoPub rfl⟩
